import Mathlib

/-!
Verification of the AI false-positive triage engine of `llm_scan`
(`llm_scan/engine/ai_engine.py` and `llm_scan/engine/ai_providers.py`).

The development shallowly embeds the code:

* Python/JSON values that flow out of `json.loads` (and back in through
  `json.dumps`) are modelled by the inductive `JVal`.  JSON numbers are kept
  as exact decimals `mantissa / 10 ^ frac` (Python floats with a decimal
  literal; IEEE rounding is outside the model, the decimal value is the
  mathematical content compared against thresholds).
* `json.loads` is `jloads` (a fuel-indexed recursive-descent reader over the
  character list, strict about escapes the way Python's json module is);
  `json.dumps` is `jdumps`.
* The provider-side recovery code `_fix_json_escapes` /
  `_parse_json_with_fallback` is translated pass by pass, including the
  placeholder protection scheme and its counter.
* The engine (`AIEngine._filter_findings_for_analysis`,
  `AIEngine._analyze_finding`, `AIEngine.filter_false_positives`,
  `AIEngine._get_cache_key`) is translated with explicit state passing: the
  in-memory verdict cache and the number of provider invocations form an
  `EngineState`, and the provider is an oracle giving the outcome of the
  n-th network call.  `md5(...).hexdigest()` in the cache key is modelled as
  the hashed text itself: only equality of keys matters to the code, and md5
  is a deterministic function of that text.
-/

namespace TruScan

/-- Left and right curly brace characters (written via code points). -/
def lbrace : Char := Char.ofNat 123

def rbrace : Char := Char.ofNat 125

/-- A Python value produced by `json.loads` (and consumed by `json.dumps`):
`null`, booleans, exact decimal numbers `m / 10 ^ f`, strings, lists and
(string-keyed, insertion-ordered) dicts. -/
inductive JVal where
  | null : JVal
  | bool (b : Bool) : JVal
  | num (m : Int) (f : Nat) : JVal
  | str (s : String) : JVal
  | arr (xs : List JVal) : JVal
  | obj (kvs : List (String × JVal)) : JVal
deriving Repr

namespace JVal

/-- The rational value of a JSON number node (`num m f` is `m / 10 ^ f`,
built with `mkRat` so that concrete values reduce in the kernel). -/
def numVal (m : Int) (f : Nat) : ℚ := mkRat m (10 ^ f)

end JVal

/-! ### Decimal digits, shared by the serializer and the reader -/

/-- The character of a decimal digit (`0 ↦ '0'`, …, `9 ↦ '9'`). -/
def digitChar (d : Nat) : Char := Char.ofNat (48 + d)

/-- Decimal digit test, as in Python's json reader. -/
def isDigitCh (c : Char) : Bool := '0' ≤ c && c ≤ '9'

/-- The numeric value of a digit character. -/
def digitVal (c : Char) : Nat := c.toNat - 48

/-- Big-endian digit characters of a natural number (`"0"` for zero). -/
def natChars (n : Nat) : List Char :=
  if n = 0 then ['0'] else ((Nat.digits 10 n).map digitChar).reverse

/-- Value of a big-endian digit-character run (`foldl` as a reader would). -/
def charsToNat (cs : List Char) : Nat :=
  cs.foldl (fun acc c => acc * 10 + digitVal c) 0

/-- Pad a digit run with leading zeros up to length `k`. -/
def padZeros (k : Nat) (ds : List Char) : List Char :=
  List.replicate (k - ds.length) '0' ++ ds

/-- The characters Python prints for the exact decimal `n / 10 ^ f`, `n ≥ 0`:
the integer digits, and for `f > 0` a `'.'` with exactly `f` fractional
digits (zero-padded on the left as needed, e.g. `(5, 1) ↦ "0.5"`). -/
def absDecimalChars (n : Nat) (f : Nat) : List Char :=
  if f = 0 then natChars n
  else
    let ds := padZeros (f + 1) (natChars n)
    ds.take (ds.length - f) ++ '.' :: ds.drop (ds.length - f)

/-- The characters Python prints for the exact decimal `m / 10 ^ f`. -/
def decimalChars (m : Int) (f : Nat) : List Char :=
  (if m < 0 then ['-'] else []) ++ absDecimalChars m.natAbs f

/-! ### The serializer (`json.dumps` with default separators) -/

/-- Hex digit character (lowercase), as Python emits in `\u00XX` escapes. -/
def hexChar (d : Nat) : Char :=
  if d < 10 then Char.ofNat (48 + d) else Char.ofNat (97 + (d - 10))

/-- JSON escaping of one character, as `json.dumps` renders string content:
quote, backslash and the five named control escapes get two-character
escapes, remaining control characters get `\u00XX`, everything else is
emitted raw. -/
def escapeChar (c : Char) : List Char :=
  if c = '"' then ['\\', '"']
  else if c = '\\' then ['\\', '\\']
  else if c = '\n' then ['\\', 'n']
  else if c = '\r' then ['\\', 'r']
  else if c = '\t' then ['\\', 't']
  else if c = Char.ofNat 8 then ['\\', 'b']
  else if c = Char.ofNat 12 then ['\\', 'f']
  else if c.toNat < 32 then
    ['\\', 'u', '0', '0', hexChar (c.toNat / 16), hexChar (c.toNat % 16)]
  else [c]

/-- A rendered JSON string: quote, escaped content, quote. -/
def dumpStr (s : String) : List Char :=
  '"' :: (s.data.flatMap escapeChar ++ ['"'])

mutual

/-- `json.dumps` of a value, to characters (default separators `", "`, `": "`). -/
def jdumpsV : JVal → List Char
  | .null => "null".data
  | .bool true => "true".data
  | .bool false => "false".data
  | .num m f => decimalChars m f
  | .str s => dumpStr s
  | .arr xs => '[' :: (jdumpsElems xs ++ [']'])
  | .obj kvs => lbrace :: (jdumpsMembers kvs ++ [rbrace])

/-- Array elements joined by `", "`. -/
def jdumpsElems : List JVal → List Char
  | [] => []
  | [x] => jdumpsV x
  | x :: y :: xs => jdumpsV x ++ ',' :: ' ' :: jdumpsElems (y :: xs)

/-- Object members `"key": value` joined by `", "`. -/
def jdumpsMembers : List (String × JVal) → List Char
  | [] => []
  | [(k, v)] => dumpStr k ++ ':' :: ' ' :: jdumpsV v
  | (k, v) :: m :: kvs =>
      dumpStr k ++ ':' :: ' ' :: (jdumpsV v ++ ',' :: ' ' :: jdumpsMembers (m :: kvs))

end

/-- `json.dumps` as a string-to-string function. -/
def jdumps (v : JVal) : String := String.mk (jdumpsV v)

/-! ### The reader (`json.loads`)

A recursive-descent reader over the character list, strict the way Python's
json module is: invalid escapes and raw control characters inside strings are
rejected, trailing garbage after the document is rejected.  The recursion on
values is indexed by fuel (an upper bound on the number of reader steps);
`jloads` hands it `length + 1` fuel, which `jloads_jdumps` below shows is
always enough for serializer output.  Outside the model: `\uXXXX` escapes
denoting UTF-16 surrogate halves (Lean `Char` cannot carry them), and
exponent notation in numbers (the serializer side never emits either). -/

/-- JSON whitespace (the four characters Python's json module skips). -/
def isJsonWs (c : Char) : Bool := c = ' ' || c = '\t' || c = '\n' || c = '\r'

/-- Drop leading JSON whitespace. -/
def dropWs : List Char → List Char
  | [] => []
  | c :: cs => if isJsonWs c then dropWs cs else c :: cs

/-- Split a leading run of decimal digits. -/
def spanDigits : List Char → List Char × List Char
  | [] => ([], [])
  | c :: cs =>
      if isDigitCh c then
        let (ds, r) := spanDigits cs
        (c :: ds, r)
      else ([], c :: cs)

/-- The value of one hex digit character, if it is one. -/
def hexVal (c : Char) : Option Nat :=
  if '0' ≤ c && c ≤ '9' then some (c.toNat - 48)
  else if 'a' ≤ c && c ≤ 'f' then some (c.toNat - 97 + 10)
  else if 'A' ≤ c && c ≤ 'F' then some (c.toNat - 65 + 10)
  else none

/-- The character named by a two-character JSON escape, if valid. -/
def escCharOf (c : Char) : Option Char :=
  if c = '"' then some '"'
  else if c = '\\' then some '\\'
  else if c = '/' then some '/'
  else if c = 'b' then some (Char.ofNat 8)
  else if c = 'f' then some (Char.ofNat 12)
  else if c = 'n' then some '\n'
  else if c = 'r' then some '\r'
  else if c = 't' then some '\t'
  else none

/-- Read a string body after the opening quote; `acc` holds the content read
so far, reversed.  Rejects invalid escapes and raw control characters. -/
def readStrBody (acc : List Char) : List Char → Option (String × List Char)
  | [] => none
  | '"' :: r => some (String.mk acc.reverse, r)
  | '\\' :: 'u' :: a :: b :: c :: d :: r =>
      match hexVal a, hexVal b, hexVal c, hexVal d with
      | some va, some vb, some vc, some vd =>
          readStrBody (Char.ofNat (((va * 16 + vb) * 16 + vc) * 16 + vd) :: acc) r
      | _, _, _, _ => none
  | '\\' :: e :: r =>
      match escCharOf e with
      | some ch => readStrBody (ch :: acc) r
      | none => none
  | c :: r => if c.toNat < 32 then none else readStrBody (c :: acc) r

/-- Read an unsigned JSON number (digits, optional `.` digits) into its
exact decimal `(mantissa, fraction-length)` form; a `.` must be followed
by at least one digit. -/
def readNumAbs (cs : List Char) : Option ((Nat × Nat) × List Char) :=
  match spanDigits cs with
  | ([], _) => none
  | (intDs, rest) =>
      match rest with
      | '.' :: r =>
          match spanDigits r with
          | ([], _) => none
          | (fracDs, rest') =>
              some ((charsToNat (intDs ++ fracDs), fracDs.length), rest')
      | _ => some ((charsToNat intDs, 0), rest)

/-- Read a JSON number (optional minus, then `readNumAbs`). -/
def readNum (cs : List Char) : Option ((Int × Nat) × List Char) :=
  match cs with
  | '-' :: r => (readNumAbs r).map (fun p => ((-(p.1.1 : Int), p.1.2), p.2))
  | r => (readNumAbs r).map (fun p => (((p.1.1 : Int), p.1.2), p.2))

/-- Insert `(k, v)` into an insertion-ordered dict: overwrite in place if the
key is present, append otherwise — Python dict semantics. -/
def dictInsert (k : String) (v : JVal) : List (String × JVal) → List (String × JVal)
  | [] => [(k, v)]
  | (k', v') :: kvs => if k' = k then (k, v) :: kvs else (k', v') :: dictInsert k v kvs

/-- Build a dict from syntactic members in order (later keys overwrite). -/
def dictOfPairs (kvs : List (String × JVal)) : List (String × JVal) :=
  kvs.foldl (fun acc kv => dictInsert kv.1 kv.2 acc) []

mutual

/-- Read one JSON value (fuel-indexed). -/
def readVal (fuel : Nat) (cs : List Char) : Option (JVal × List Char) :=
  match fuel with
  | 0 => none
  | fuel + 1 =>
      match dropWs cs with
      | 'n' :: 'u' :: 'l' :: 'l' :: r => some (.null, r)
      | 't' :: 'r' :: 'u' :: 'e' :: r => some (.bool true, r)
      | 'f' :: 'a' :: 'l' :: 's' :: 'e' :: r => some (.bool false, r)
      | '"' :: r =>
          match readStrBody [] r with
          | some (s, r') => some (.str s, r')
          | none => none
      | '[' :: r =>
          match dropWs r with
          | [] => none
          | c :: r' =>
              if c = ']' then some (.arr [], r')
              else
                match readElems fuel (c :: r') with
                | some (xs, r'') => some (.arr xs, r'')
                | none => none
      | c :: r =>
          if c = lbrace then
            match dropWs r with
            | [] => none
            | c' :: r' =>
                if c' = rbrace then some (.obj [], r')
                else
                  match readMembers fuel (c' :: r') with
                  | some (kvs, r'') => some (.obj (dictOfPairs kvs), r'')
                  | none => none
          else if c = '-' || isDigitCh c then
            match readNum (c :: r) with
            | some ((m, f), r') => some (.num m f, r')
            | none => none
          else none
      | [] => none

/-- Read one-or-more comma-separated array elements up to `]`. -/
def readElems (fuel : Nat) (cs : List Char) : Option (List JVal × List Char) :=
  match fuel with
  | 0 => none
  | fuel + 1 =>
      match readVal fuel cs with
      | none => none
      | some (v, r) =>
          match dropWs r with
          | ',' :: r' =>
              match readElems fuel (dropWs r') with
              | some (vs, r'') => some (v :: vs, r'')
              | none => none
          | ']' :: r' => some ([v], r')
          | _ => none

/-- Read one-or-more `"key": value` members up to `}` (syntactic order). -/
def readMembers (fuel : Nat) (cs : List Char) :
    Option (List (String × JVal) × List Char) :=
  match fuel with
  | 0 => none
  | fuel + 1 =>
      match dropWs cs with
      | '"' :: r =>
          match readStrBody [] r with
          | none => none
          | some (k, r1) =>
              match dropWs r1 with
              | ':' :: r2 =>
                  match readVal fuel r2 with
                  | none => none
                  | some (v, r3) =>
                      match dropWs r3 with
                      | ',' :: r4 =>
                          match readMembers fuel r4 with
                          | some (kvs, r5) => some ((k, v) :: kvs, r5)
                          | none => none
                      | c :: r4 =>
                          if c = rbrace then some ([(k, v)], r4) else none
                      | [] => none
              | _ => none
      | _ => none

end

/-- `json.loads`: read one document, allow surrounding whitespace, reject
trailing garbage. -/
def jloads (s : String) : Option JVal :=
  match readVal (s.length + 1) s.toList with
  | none => none
  | some (v, r) => if (dropWs r).isEmpty then some v else none

/-! ### Serializability: values that denote honest Python dicts

An `obj` node stands for a Python dict, so its keys must be distinct (at
every nesting level).  This is exactly the fragment `json.dumps` can have
produced a dict from, and the fragment over which the round-trip law is
claimed. -/

/-- No string occurs twice. -/
def distinctKeys : List String → Bool
  | [] => true
  | k :: ks => !(ks.contains k) && distinctKeys ks

mutual

/-- Every `obj` node in the value has distinct keys. -/
def wfJ : JVal → Bool
  | .null => true
  | .bool _ => true
  | .num _ _ => true
  | .str _ => true
  | .arr xs => wfJL xs
  | .obj kvs => distinctKeys (kvs.map Prod.fst) && wfJP kvs

/-- `wfJ` on every element. -/
def wfJL : List JVal → Bool
  | [] => true
  | x :: xs => wfJ x && wfJL xs

/-- `wfJ` on every member value. -/
def wfJP : List (String × JVal) → Bool
  | [] => true
  | (_, v) :: kvs => wfJ v && wfJP kvs

end

/-! ### Round trip, part 1: digits and numbers -/

theorem digitVal_digitChar {d : Nat} (h : d < 10) :
    digitVal (digitChar d) = d ∧ isDigitCh (digitChar d) = true := by
  interval_cases d <;> exact ⟨by decide, by decide⟩

theorem natChars_all_digits (n : Nat) : ∀ c ∈ natChars n, isDigitCh c = true := by
  intro c hc
  unfold natChars at hc
  split at hc
  · simp only [List.mem_singleton] at hc
    subst hc; decide
  · simp only [List.mem_reverse, List.mem_map] at hc
    obtain ⟨d, hd, rfl⟩ := hc
    exact (digitVal_digitChar (Nat.digits_lt_base (by norm_num) hd)).2

theorem natChars_ne_nil (n : Nat) : natChars n ≠ [] := by
  unfold natChars
  split
  · simp
  · rename_i h
    have : Nat.digits 10 n ≠ [] := Nat.digits_ne_nil_iff_ne_zero.mpr h
    simp [this]

theorem charsToNat_map_digitChar (ds : List Nat) (h : ∀ d ∈ ds, d < 10) :
    charsToNat ((ds.map digitChar).reverse) = Nat.ofDigits 10 ds := by
  induction ds with
  | nil => rfl
  | cons d ds ih =>
      have hd : d < 10 := h d (by simp)
      have hds : ∀ x ∈ ds, x < 10 := fun x hx => h x (by simp [hx])
      simp only [List.map_cons, List.reverse_cons]
      unfold charsToNat
      rw [List.foldl_append]
      have ihv := ih hds
      unfold charsToNat at ihv
      rw [ihv]
      simp [Nat.ofDigits_cons, (digitVal_digitChar hd).1]
      ring

theorem charsToNat_natChars (n : Nat) : charsToNat (natChars n) = n := by
  unfold natChars
  split
  · rename_i h; subst h; rfl
  · rw [charsToNat_map_digitChar _ (fun d hd => Nat.digits_lt_base (by norm_num) hd)]
    exact Nat.ofDigits_digits 10 n

theorem charsToNat_replicate_zero (k : Nat) (cs : List Char) :
    charsToNat (List.replicate k '0' ++ cs) = charsToNat cs := by
  induction k with
  | zero => rfl
  | succ k ih =>
      rw [List.replicate_succ, List.cons_append]
      unfold charsToNat at *
      simpa [digitVal] using ih

theorem charsToNat_padZeros (k : Nat) (cs : List Char) :
    charsToNat (padZeros k cs) = charsToNat cs :=
  charsToNat_replicate_zero _ _

theorem padZeros_all_digits (k : Nat) (cs : List Char)
    (h : ∀ c ∈ cs, isDigitCh c = true) :
    ∀ c ∈ padZeros k cs, isDigitCh c = true := by
  intro c hc
  rcases List.mem_append.mp hc with h0 | h1
  · rw [List.eq_of_mem_replicate h0]; decide
  · exact h c h1

theorem padZeros_length (k : Nat) (cs : List Char) :
    (padZeros k cs).length = max k cs.length := by
  simp [padZeros]
  omega

/-- A list on which a digit run must stop: empty, or headed by something
that is neither a digit nor `'.'`. -/
def numStop : List Char → Bool
  | [] => true
  | c :: _ => !(isDigitCh c || c = '.')

theorem spanDigits_stop {cs : List Char} (h : numStop cs = true) :
    spanDigits cs = ([], cs) := by
  match cs with
  | [] => rfl
  | c :: t =>
      simp only [numStop, Bool.not_eq_true', Bool.or_eq_false_iff] at h
      simp [spanDigits, h.1]

theorem spanDigits_append (ds : List Char) (hds : ∀ c ∈ ds, isDigitCh c = true)
    (rest : List Char) (hrest : spanDigits rest = ([], rest)) :
    spanDigits (ds ++ rest) = (ds, rest) := by
  induction ds with
  | nil => simpa using hrest
  | cons c t ih =>
      have hc : isDigitCh c = true := hds c (by simp)
      have ht := ih (fun x hx => hds x (by simp [hx]))
      simp [spanDigits, hc, ht]

theorem numStop_head {c : Char} {t : List Char} (h : numStop (c :: t) = true) :
    isDigitCh c = false ∧ c ≠ '.' := by
  simp only [numStop, Bool.not_eq_true', Bool.or_eq_false_iff,
    decide_eq_false_iff_not] at h
  exact h

theorem ne_of_not_digit {c d : Char} (h : isDigitCh c = true)
    (hd : isDigitCh d = false) : c ≠ d := by
  intro he
  rw [he, hd] at h
  cases h

theorem digit_head_facts {c : Char} (h : isDigitCh c = true) :
    c ≠ '-' ∧ c ≠ '.' ∧ isJsonWs c = false ∧ c ≠ ']' ∧ c ≠ rbrace ∧ c ≠ ','
      ∧ c ≠ 'n' ∧ c ≠ 't' ∧ c ≠ 'f' ∧ c ≠ '"' ∧ c ≠ '[' ∧ c ≠ lbrace := by
  have hne : ∀ d : Char, isDigitCh d = false → c ≠ d := fun d hd => ne_of_not_digit h hd
  refine ⟨hne '-' (by decide), hne '.' (by decide), ?_, hne ']' (by decide),
    hne rbrace (by decide), hne ',' (by decide), hne 'n' (by decide),
    hne 't' (by decide), hne 'f' (by decide), hne '"' (by decide),
    hne '[' (by decide), hne lbrace (by decide)⟩
  simp [isJsonWs, hne ' ' (by decide), hne '\t' (by decide),
    hne '\n' (by decide), hne '\r' (by decide)]

theorem natChars_cons (n : Nat) :
    ∃ c t, natChars n = c :: t ∧ isDigitCh c = true := by
  match h : natChars n with
  | [] => exact absurd h (natChars_ne_nil n)
  | c :: t => exact ⟨c, t, rfl, natChars_all_digits n c (h ▸ List.mem_cons_self ..)⟩

/-- The integer-part digit run of `decimalChars m f` for `f > 0`:
its characters, nonemptiness, and its recombination with the fraction. -/
theorem decimal_split (m : Int) (f : Nat) (_hf : f ≠ 0) :
    let P := padZeros (f + 1) (natChars m.natAbs)
    let k := P.length - f
    (∀ c ∈ P.take k, isDigitCh c = true) ∧ (∀ c ∈ P.drop k, isDigitCh c = true)
      ∧ (P.take k).length = k ∧ (P.drop k).length = f ∧ 1 ≤ k
      ∧ charsToNat (P.take k ++ P.drop k) = m.natAbs := by
  intro P k
  have hall : ∀ c ∈ P, isDigitCh c = true :=
    padZeros_all_digits _ _ (natChars_all_digits m.natAbs)
  have hlen : P.length = max (f + 1) (natChars m.natAbs).length :=
    padZeros_length _ _
  have hge : f + 1 ≤ P.length := by omega
  refine ⟨fun c hc => hall c (List.mem_of_mem_take hc),
    fun c hc => hall c (List.mem_of_mem_drop hc), ?_, ?_, ?_, ?_⟩
  · simp only [List.length_take]; omega
  · simp only [List.length_drop]; omega
  · omega
  · rw [List.take_append_drop]
    exact (charsToNat_padZeros _ _).trans (charsToNat_natChars _)

/-- The sign-free decimal rendering also begins with a digit. -/
theorem absDecimalChars_cons (n f : Nat) :
    ∃ c t, absDecimalChars n f = c :: t ∧ isDigitCh c = true := by
  unfold absDecimalChars
  by_cases hf : f = 0
  · simpa [hf] using natChars_cons n
  · obtain ⟨hdt, _, hlt, _, hk, _⟩ := decimal_split (n : Int) f hf
    simp only [Int.natAbs_ofNat] at hdt hlt hk
    rw [if_neg hf]
    set P := padZeros (f + 1) (natChars n) with hP
    match htk : P.take (P.length - f) with
    | [] => rw [htk] at hlt; simp at hlt; omega
    | c :: t =>
        refine ⟨c, t ++ '.' :: P.drop (P.length - f), ?_, ?_⟩
        · simp [htk]
        · exact hdt c (htk ▸ List.mem_cons_self ..)

/-- The unsigned part of the number round trip: `readNumAbs` recovers
`(n, f)` from `absDecimalChars n f`. -/
theorem readNumAbs_decimal (n : Nat) (f : Nat) (rest : List Char)
    (hr : numStop rest = true) :
    readNumAbs (absDecimalChars n f ++ rest) = some ((n, f), rest) := by
  have hspanrest : spanDigits rest = ([], rest) := spanDigits_stop hr
  by_cases hf : f = 0
  · subst hf
    obtain ⟨c0, t0, h0, hc0⟩ := natChars_cons n
    have hspan : spanDigits (natChars n ++ rest) = (natChars n, rest) :=
      spanDigits_append _ (natChars_all_digits n) _ hspanrest
    rw [show absDecimalChars n 0 = natChars n from by simp [absDecimalChars]]
    unfold readNumAbs
    rw [hspan, h0]
    match rest, hr with
    | [], _ => simp [← h0, charsToNat_natChars]
    | c :: t, hr =>
        have hh := numStop_head hr
        simp [hh.2, ← h0, charsToNat_natChars]
  · obtain ⟨hdt, hdd, hlt, hld, hk, hrec⟩ := decimal_split (n : Int) f hf
    simp only [Int.natAbs_ofNat] at hdt hdd hlt hld hk hrec
    set P := padZeros (f + 1) (natChars n) with hP
    set k := P.length - f with hkdef
    have harg : absDecimalChars n f = P.take k ++ '.' :: P.drop k := by
      rw [absDecimalChars, if_neg hf]
    have hspan1 : spanDigits (P.take k ++ ('.' :: (P.drop k ++ rest)))
        = (P.take k, '.' :: (P.drop k ++ rest)) := by
      refine spanDigits_append _ hdt _ ?_
      simp [spanDigits, isDigitCh]
    have hspan2 : spanDigits (P.drop k ++ rest) = (P.drop k, rest) :=
      spanDigits_append _ hdd _ hspanrest
    rw [harg]
    unfold readNumAbs
    rw [List.append_assoc, List.cons_append, hspan1]
    match htk : P.take k with
    | [] => rw [htk] at hlt; simp at hlt; omega
    | a :: ta =>
        match htd : P.drop k with
        | [] => rw [htd] at hld; simp at hld; omega
        | b :: tb =>
            rw [htd] at hspan2
            simp only [hspan2]
            rw [← htd, ← htk, hrec, ← hld, htd]

/-- `readNum` inverts `decimalChars` whenever the remainder cannot extend
the number. -/
theorem readNum_decimal (m : Int) (f : Nat) (rest : List Char)
    (hr : numStop rest = true) :
    readNum (decimalChars m f ++ rest) = some ((m, f), rest) := by
  by_cases hm : m < 0
  · have harg : decimalChars m f ++ rest = '-' :: (absDecimalChars m.natAbs f ++ rest) := by
      simp [decimalChars, hm]
    rw [harg]
    unfold readNum
    split
    · rename_i r heq
      injection heq with _ hr2
      rw [← hr2, readNumAbs_decimal _ _ _ hr]
      have hmm : (-(m.natAbs : Int)) = m := by omega
      simp only [Option.map]
      rw [hmm]
    · rename_i hno
      exact absurd rfl (hno (absDecimalChars m.natAbs f ++ rest))
  · obtain ⟨c0, t0, h0, hc0⟩ := absDecimalChars_cons m.natAbs f
    have hfacts := digit_head_facts hc0
    have harg : decimalChars m f ++ rest = c0 :: (t0 ++ rest) := by
      simp [decimalChars, hm, h0]
    rw [harg]
    unfold readNum
    split
    · rename_i r heq
      injection heq with hc _
      exact absurd hc hfacts.1
    · have habs := readNumAbs_decimal m.natAbs f rest hr
      rw [h0, List.cons_append] at habs
      rw [habs]
      have hmm : ((m.natAbs : Int)) = m := by omega
      simp only [Option.map]
      rw [hmm]

/-! ### Round trip, part 2: strings -/

theorem hexVal_hexChar {d : Nat} (h : d < 16) : hexVal (hexChar d) = some d := by
  interval_cases d <;> decide

/-- Reading one escaped character undoes the escaping. -/
theorem readStrBody_escape (c : Char) (acc rest : List Char) :
    readStrBody acc (escapeChar c ++ rest) = readStrBody (c :: acc) rest := by
  unfold escapeChar
  by_cases h1 : c = '"'
  · subst h1; simp [readStrBody, escCharOf]
  by_cases h2 : c = '\\'
  · subst h2; simp [readStrBody, escCharOf]
  by_cases h3 : c = '\n'
  · subst h3; simp [readStrBody, escCharOf]
  by_cases h4 : c = '\r'
  · subst h4; simp [readStrBody, escCharOf]
  by_cases h5 : c = '\t'
  · subst h5; simp [readStrBody, escCharOf]
  by_cases h6 : c = Char.ofNat 8
  · subst h6; simp [readStrBody, escCharOf]
  by_cases h7 : c = Char.ofNat 12
  · subst h7; simp [readStrBody, escCharOf]
  simp only [if_neg h1, if_neg h2, if_neg h3, if_neg h4, if_neg h5, if_neg h6, if_neg h7]
  by_cases h8 : c.toNat < 32
  · simp only [if_pos h8, List.cons_append]
    have hhi : c.toNat / 16 < 16 := by omega
    have hlo : c.toNat % 16 < 16 := Nat.mod_lt _ (by norm_num)
    rw [readStrBody]
    simp only [hexVal_hexChar hhi, hexVal_hexChar hlo,
      show hexVal '0' = some 0 from rfl]
    have : ((0 * 16 + 0) * 16 + c.toNat / 16) * 16 + c.toNat % 16 = c.toNat := by
      omega
    rw [this, Char.ofNat_toNat, List.nil_append]
  · simp only [if_neg h8, List.cons_append, List.nil_append]
    rw [readStrBody.eq_def]
    split
    · rename_i heq
      exact absurd heq (by simp)
    · rename_i r heq
      injection heq with he1 _
      exact absurd he1 h1
    · rename_i a b cc d r heq
      injection heq with he1 _
      exact absurd he1 h2
    · rename_i e r heq
      injection heq with he1 _
      exact absurd he1 h2
    · rename_i c' r heq
      injection heq with he1 he2
      subst he1
      subst he2
      simp [h8]

/-- Reading an escaped run stops exactly at the closing quote. -/
theorem readStrBody_flatMap (cs : List Char) : ∀ (acc rest : List Char),
    readStrBody acc (cs.flatMap escapeChar ++ '"' :: rest)
      = some (String.mk (acc.reverse ++ cs), rest) := by
  induction cs with
  | nil => intro acc rest; simp [readStrBody]
  | cons c cs ih =>
      intro acc rest
      rw [List.flatMap_cons, List.append_assoc, readStrBody_escape, ih]
      simp

/-- The string codec round trip: reading a rendered string body recovers it. -/
theorem readStrBody_dump (s : String) (rest : List Char) :
    readStrBody [] (s.data.flatMap escapeChar ++ '"' :: rest) = some (s, rest) := by
  rw [readStrBody_flatMap]
  cases s
  rfl

/-! ### Round trip, part 3: dict reconstruction on distinct keys -/

theorem dictInsert_of_not_mem (k : String) (v : JVal) (acc : List (String × JVal))
    (h : k ∉ acc.map Prod.fst) : dictInsert k v acc = acc ++ [(k, v)] := by
  induction acc with
  | nil => rfl
  | cons kv acc ih =>
      simp only [List.map_cons, List.mem_cons] at h
      push_neg at h
      simp only [dictInsert, if_neg (Ne.symm h.1), List.cons_append]
      rw [ih h.2]

theorem foldl_dictInsert (kvs : List (String × JVal)) :
    ∀ acc : List (String × JVal),
      distinctKeys (kvs.map Prod.fst) = true →
      (∀ k ∈ kvs.map Prod.fst, k ∉ acc.map Prod.fst) →
      kvs.foldl (fun acc kv => dictInsert kv.1 kv.2 acc) acc = acc ++ kvs := by
  induction kvs with
  | nil => intro acc _ _; simp
  | cons kv kvs ih =>
      intro acc hd hdisj
      simp only [List.map_cons, distinctKeys, Bool.and_eq_true,
        Bool.not_eq_true', List.contains_eq_any_beq, List.any_eq_false,
        beq_iff_eq] at hd
      simp only [List.foldl_cons]
      rw [dictInsert_of_not_mem kv.1 kv.2 acc
        (hdisj kv.1 (by simp))]
      rw [ih (acc ++ [(kv.1, kv.2)]) hd.2]
      · simp
      · intro k hk
        simp only [List.map_append, List.mem_append, List.map_cons, List.map_nil,
          List.mem_singleton]
        push_neg
        refine ⟨hdisj k (by simp [hk]), ?_⟩
        intro he
        exact hd.1 k hk he.symm

/-- On distinct keys, Python dict construction is the identity. -/
theorem dictOfPairs_distinct (kvs : List (String × JVal))
    (h : distinctKeys (kvs.map Prod.fst) = true) : dictOfPairs kvs = kvs := by
  rw [dictOfPairs, foldl_dictInsert kvs [] h (by simp)]
  rfl

/-! ### Round trip, part 4: rendered values under the reader -/

/-- Every rendered value begins with a character that is not whitespace and
closes nothing. -/
theorem jdumpsV_head (j : JVal) :
    ∃ c t, jdumpsV j = c :: t ∧ isJsonWs c = false ∧ c ≠ ']' ∧ c ≠ rbrace := by
  cases j with
  | num m f =>
      by_cases hm : m < 0
      · refine ⟨'-', absDecimalChars m.natAbs f, ?_, ?_, ?_, ?_⟩
        · simp [jdumpsV, decimalChars, hm]
        all_goals decide
      · obtain ⟨c0, t0, h0, hc0⟩ := absDecimalChars_cons m.natAbs f
        have hfacts := digit_head_facts hc0
        refine ⟨c0, t0, ?_, hfacts.2.2.1, hfacts.2.2.2.1, hfacts.2.2.2.2.1⟩
        simp [jdumpsV, decimalChars, hm, h0]
  | null => refine ⟨'n', _, rfl, ?_, ?_, ?_⟩ <;> decide
  | bool b =>
      cases b with
      | false => refine ⟨'f', _, rfl, ?_, ?_, ?_⟩ <;> decide
      | true => refine ⟨'t', _, rfl, ?_, ?_, ?_⟩ <;> decide
  | str s => refine ⟨'"', _, rfl, ?_, ?_, ?_⟩ <;> decide
  | arr xs => refine ⟨'[', _, rfl, ?_, ?_, ?_⟩ <;> decide
  | obj kvs => refine ⟨lbrace, _, rfl, ?_, ?_, ?_⟩ <;> decide

theorem dropWs_cons_ws {c : Char} (h : isJsonWs c = true) (cs : List Char) :
    dropWs (c :: cs) = dropWs cs := by
  simp [dropWs, h]

theorem dropWs_cons_not_ws {c : Char} (h : isJsonWs c = false) (cs : List Char) :
    dropWs (c :: cs) = c :: cs := by
  simp [dropWs, h]

/-- `dropWs` does not touch rendered output. -/
theorem dropWs_jdumpsV (j : JVal) (x : List Char) :
    dropWs (jdumpsV j ++ x) = jdumpsV j ++ x := by
  obtain ⟨c, t, hren, hws, _, _⟩ := jdumpsV_head j
  rw [hren, List.cons_append, dropWs_cons_not_ws hws]

/-- An opening brace sends the value reader into the member loop. -/
theorem readVal_into_members (fuel : Nat) (r : List Char) :
    readVal (fuel + 1) (lbrace :: r)
      = (match dropWs r with
         | [] => none
         | c' :: r' =>
             if c' = rbrace then some (.obj [], r')
             else
               match readMembers fuel (c' :: r') with
               | some (kvs, r'') => some (.obj (dictOfPairs kvs), r'')
               | none => none) := by
  rw [readVal]
  rw [dropWs_cons_not_ws (by decide) r]
  split
  · rename_i heq
    injection heq with he1 _
    exact absurd he1 (by decide)
  · rename_i heq
    injection heq with he1 _
    exact absurd he1 (by decide)
  · rename_i heq
    injection heq with he1 _
    exact absurd he1 (by decide)
  · rename_i heq
    injection heq with he1 _
    exact absurd he1 (by decide)
  · rename_i heq
    injection heq with he1 _
    exact absurd he1 (by decide)
  · rename_i c r0 heq
    injection heq with he1 he2
    subst he2
    rw [if_pos he1.symm]
  · rename_i heq
    exact absurd heq (by simp)

/-- A head that opens no other construct sends the value reader into
`readNum`. -/
theorem readVal_into_readNum (fuel : Nat) (c0 : Char) (t : List Char)
    (hws : isJsonWs c0 = false)
    (hno : c0 ≠ 'n' ∧ c0 ≠ 't' ∧ c0 ≠ 'f' ∧ c0 ≠ '"' ∧ c0 ≠ '[' ∧ c0 ≠ lbrace)
    (hg : (c0 = '-' || isDigitCh c0) = true) :
    readVal (fuel + 1) (c0 :: t)
      = (match readNum (c0 :: t) with
         | some ((m, f), r') => some (.num m f, r')
         | none => none) := by
  rw [readVal]
  rw [dropWs_cons_not_ws hws]
  split
  · rename_i heq
    injection heq with he1 _
    exact absurd he1 hno.1
  · rename_i heq
    injection heq with he1 _
    exact absurd he1 hno.2.1
  · rename_i heq
    injection heq with he1 _
    exact absurd he1 hno.2.2.1
  · rename_i heq
    injection heq with he1 _
    exact absurd he1 hno.2.2.2.1
  · rename_i heq
    injection heq with he1 _
    exact absurd he1 hno.2.2.2.2.1
  · rename_i c r0 heq
    injection heq with he1 he2
    subst he1
    subst he2
    rw [if_neg hno.2.2.2.2.2, if_pos hg]
  · rename_i heq
    exact absurd heq (by simp)

theorem readVal_skip_ws (fuel : Nat) {c : Char} (h : isJsonWs c = true)
    (cs : List Char) : readVal fuel (c :: cs) = readVal fuel cs := by
  cases fuel with
  | zero => rfl
  | succ f => rw [readVal, readVal, dropWs_cons_ws h]

theorem readMembers_skip_ws (fuel : Nat) {c : Char} (h : isJsonWs c = true)
    (cs : List Char) : readMembers fuel (c :: cs) = readMembers fuel cs := by
  cases fuel with
  | zero => rfl
  | succ f => rw [readMembers, readMembers, dropWs_cons_ws h]

theorem jdumpsElems_cons (x : JVal) (xs : List JVal) :
    ∃ w, jdumpsElems (x :: xs) = jdumpsV x ++ w := by
  cases xs with
  | nil => exact ⟨[], by simp [jdumpsElems]⟩
  | cons y ys => exact ⟨',' :: ' ' :: jdumpsElems (y :: ys), rfl⟩

theorem jdumpsMembers_cons (k : String) (v : JVal) (kvs : List (String × JVal)) :
    ∃ w, jdumpsMembers ((k, v) :: kvs)
      = '"' :: (k.data.flatMap escapeChar ++ '"' :: (':' :: ' ' :: (jdumpsV v ++ w)))
      ∧ ((kvs = [] ∧ w = []) ∨
         (∃ m ms, kvs = m :: ms ∧ w = ',' :: ' ' :: jdumpsMembers (m :: ms))) := by
  cases kvs with
  | nil =>
      refine ⟨[], ?_, Or.inl ⟨rfl, rfl⟩⟩
      simp [jdumpsMembers, dumpStr]
  | cons m ms =>
      refine ⟨',' :: ' ' :: jdumpsMembers (m :: ms), ?_, Or.inr ⟨m, ms, rfl, rfl⟩⟩
      show dumpStr k ++ ':' :: ' ' :: (jdumpsV v ++ ',' :: ' ' :: jdumpsMembers (m :: ms)) = _
      simp [dumpStr]

mutual

theorem rtVal : ∀ (j : JVal) (fuel : Nat) (rest : List Char),
    wfJ j = true → (jdumpsV j).length < fuel → numStop rest = true →
    readVal fuel (jdumpsV j ++ rest) = some (j, rest)
  | .null, fuel, rest, _, hf, _ => by
      cases fuel with
      | zero => simp [jdumpsV] at hf
      | succ f => simp [jdumpsV, readVal, dropWs, isJsonWs]
  | .bool b, fuel, rest, _, hf, _ => by
      cases fuel with
      | zero => cases b <;> simp [jdumpsV] at hf
      | succ f => cases b <;> simp [jdumpsV, readVal, dropWs, isJsonWs]
  | .num m f0, fuel, rest, _, hf, hr => by
      cases fuel with
      | zero => exact absurd hf (Nat.not_lt_zero _)
      | succ f =>
          have hnum := readNum_decimal m f0 rest hr
          by_cases hm : m < 0
          · have harg : jdumpsV (.num m f0) ++ rest
                = '-' :: (absDecimalChars m.natAbs f0 ++ rest) := by
              simp [jdumpsV, decimalChars, hm]
            rw [harg, readVal_into_readNum f '-' _ (by decide) (by decide) (by decide)]
            have harg2 : decimalChars m f0 ++ rest
                = '-' :: (absDecimalChars m.natAbs f0 ++ rest) := by
              simp [decimalChars, hm]
            rw [harg2] at hnum
            rw [hnum]
          · obtain ⟨c0, t0, h0, hc0⟩ := absDecimalChars_cons m.natAbs f0
            obtain ⟨hx1, hx2, hws', hx3, hx4, hx5, hxn, hxt, hxf, hxq, hxbk, hxbc⟩ :=
              digit_head_facts hc0
            have harg : jdumpsV (.num m f0) ++ rest = c0 :: (t0 ++ rest) := by
              simp [jdumpsV, decimalChars, hm, h0]
            rw [harg, readVal_into_readNum f c0 _ hws'
              ⟨hxn, hxt, hxf, hxq, hxbk, hxbc⟩ (by simp [hc0])]
            have harg2 : decimalChars m f0 ++ rest = c0 :: (t0 ++ rest) := by
              simp [decimalChars, hm, h0]
            rw [harg2] at hnum
            rw [hnum]
  | .str s, fuel, rest, _, hf, _ => by
      cases fuel with
      | zero => exact absurd hf (Nat.not_lt_zero _)
      | succ f =>
          have harg : jdumpsV (.str s) ++ rest
              = '"' :: (s.data.flatMap escapeChar ++ '"' :: rest) := by
            simp [jdumpsV, dumpStr]
          rw [harg, readVal, dropWs_cons_not_ws (by decide)]
          simp [readStrBody_dump]
  | .arr [], fuel, rest, _, hf, _ => by
      cases fuel with
      | zero => simp [jdumpsV, jdumpsElems] at hf
      | succ f =>
          have harg : jdumpsV (.arr []) ++ rest = '[' :: ']' :: rest := by
            simp [jdumpsV, jdumpsElems]
          rw [harg, readVal, dropWs_cons_not_ws (by decide)]
          simp [dropWs, isJsonWs]
  | .arr (x :: xs), fuel, rest, hwf, hf, _ => by
      cases fuel with
      | zero => exact absurd hf (Nat.not_lt_zero _)
      | succ f =>
          have harg : jdumpsV (.arr (x :: xs)) ++ rest
              = '[' :: (jdumpsElems (x :: xs) ++ ']' :: rest) := by
            simp [jdumpsV]
          have step : readVal (f + 1) ('[' :: (jdumpsElems (x :: xs) ++ ']' :: rest))
              = (match dropWs (jdumpsElems (x :: xs) ++ ']' :: rest) with
                 | [] => none
                 | c :: r' =>
                     if c = ']' then some (.arr [], r')
                     else
                       match readElems f (c :: r') with
                       | some (vs, r'') => some (.arr vs, r'')
                       | none => none) := by
            rw [readVal, dropWs_cons_not_ws (by decide)]
            rfl
          obtain ⟨w, hw⟩ := jdumpsElems_cons x xs
          obtain ⟨c, t, hren, hws, hbr, _⟩ := jdumpsV_head x
          have hdec : jdumpsElems (x :: xs) ++ ']' :: rest
              = c :: (t ++ w ++ ']' :: rest) := by
            rw [hw, hren]
            simp
          have hfe : (jdumpsElems (x :: xs)).length + 1 < f := by
            have : (jdumpsV (.arr (x :: xs))).length
                = (jdumpsElems (x :: xs)).length + 2 := by
              simp [jdumpsV]
            omega
          have key := rtElems x xs f rest (by simpa [wfJ] using hwf) hfe
          rw [harg, step, hdec, dropWs_cons_not_ws hws]
          split
          · rename_i heq
            exact absurd heq (by simp)
          · rename_i c' r' heq
            injection heq with he1 he2
            subst he1
            subst he2
            rw [if_neg hbr, ← hdec, key]
  | .obj [], fuel, rest, _, hf, _ => by
      cases fuel with
      | zero => simp [jdumpsV, jdumpsMembers] at hf
      | succ f =>
          have harg : jdumpsV (.obj []) ++ rest = lbrace :: rbrace :: rest := by
            simp [jdumpsV, jdumpsMembers]
          rw [harg, readVal_into_members, dropWs_cons_not_ws (by decide)]
          split
          · rename_i heq
            exact absurd heq (by simp)
          · rename_i c' r' heq
            injection heq with he1 he2
            subst he2
            rw [if_pos he1.symm]
  | .obj ((k, v) :: kvs), fuel, rest, hwf, hf, _ => by
      cases fuel with
      | zero => exact absurd hf (Nat.not_lt_zero _)
      | succ f =>
          have harg : jdumpsV (.obj ((k, v) :: kvs)) ++ rest
              = lbrace :: (jdumpsMembers ((k, v) :: kvs) ++ rbrace :: rest) := by
            simp [jdumpsV]
          simp only [wfJ, Bool.and_eq_true] at hwf
          have hfm : (jdumpsMembers ((k, v) :: kvs)).length + 1 < f := by
            have : (jdumpsV (.obj ((k, v) :: kvs))).length
                = (jdumpsMembers ((k, v) :: kvs)).length + 2 := by
              simp [jdumpsV]
            omega
          have key := rtMembers k v kvs f rest hwf.2 hfm
          obtain ⟨w, hw, _⟩ := jdumpsMembers_cons k v kvs
          have hdec : jdumpsMembers ((k, v) :: kvs) ++ rbrace :: rest
              = '"' :: ((k.toList.flatMap escapeChar
                  ++ '"' :: (':' :: ' ' :: (jdumpsV v ++ w))) ++ rbrace :: rest) := by
            rw [hw]
            simp
          rw [harg, readVal_into_members, hdec, dropWs_cons_not_ws (by decide)]
          split
          · rename_i heq
            exact absurd heq (by simp)
          · rename_i c' r' heq
            injection heq with he1 he2
            subst he1
            subst he2
            rw [if_neg (by decide), ← hdec, key]
            simp [dictOfPairs_distinct _ hwf.1]
  termination_by j _ _ _ _ _ => sizeOf j

theorem rtElems : ∀ (x : JVal) (xs : List JVal) (fuel : Nat) (rest : List Char),
    wfJL (x :: xs) = true → (jdumpsElems (x :: xs)).length + 1 < fuel →
    readElems fuel (jdumpsElems (x :: xs) ++ ']' :: rest) = some (x :: xs, rest)
  | x, [], fuel, rest, hwf, hf => by
      cases fuel with
      | zero => omega
      | succ f =>
          simp only [wfJL, Bool.and_eq_true] at hwf
          have hfx : (jdumpsV x).length < f := by
            simp only [jdumpsElems] at hf
            omega
          have hv := rtVal x f (']' :: rest) hwf.1 hfx (by rfl)
          have harg : jdumpsElems [x] ++ ']' :: rest = jdumpsV x ++ ']' :: rest := by
            simp [jdumpsElems]
          rw [harg, readElems, hv]
          simp [dropWs, isJsonWs]
  | x, y :: ys, fuel, rest, hwf, hf => by
      cases fuel with
      | zero => omega
      | succ f =>
          simp only [wfJL, Bool.and_eq_true] at hwf
          simp only [jdumpsElems, List.length_append, List.length_cons] at hf
          have hfx : (jdumpsV x).length < f := by omega
          have hfy : (jdumpsElems (y :: ys)).length + 1 < f := by omega
          have hv := rtVal x f (',' :: ' ' :: (jdumpsElems (y :: ys) ++ ']' :: rest))
            hwf.1 hfx (by rfl)
          have key := rtElems y ys f rest (by simpa [wfJL] using hwf.2) hfy
          have harg : jdumpsElems (x :: y :: ys) ++ ']' :: rest
              = jdumpsV x ++ ',' :: ' ' :: (jdumpsElems (y :: ys) ++ ']' :: rest) := by
            show jdumpsV x ++ ',' :: ' ' :: jdumpsElems (y :: ys) ++ ']' :: rest = _
            simp
          obtain ⟨w, hwdec⟩ := jdumpsElems_cons y ys
          have hdws2 : dropWs (jdumpsElems (y :: ys) ++ ']' :: rest)
              = jdumpsElems (y :: ys) ++ ']' :: rest := by
            rw [hwdec, List.append_assoc]
            exact dropWs_jdumpsV y (w ++ ']' :: rest)
          rw [harg, readElems, hv]
          simp only [dropWs_cons_not_ws (show isJsonWs ',' = false from by decide),
            dropWs_cons_ws (show isJsonWs ' ' = true from by decide)]
          rw [hdws2, key]
  termination_by x xs _ _ _ _ => sizeOf x + sizeOf xs

theorem rtMembers : ∀ (k : String) (v : JVal) (kvs : List (String × JVal))
    (fuel : Nat) (rest : List Char),
    wfJP ((k, v) :: kvs) = true → (jdumpsMembers ((k, v) :: kvs)).length + 1 < fuel →
    readMembers fuel (jdumpsMembers ((k, v) :: kvs) ++ rbrace :: rest)
      = some ((k, v) :: kvs, rest)
  | k, v, [], fuel, rest, hwf, hf => by
      cases fuel with
      | zero => omega
      | succ f =>
          simp only [wfJP, Bool.and_eq_true] at hwf
          have hE : jdumpsMembers [(k, v)] = dumpStr k ++ ':' :: ' ' :: jdumpsV v := rfl
          rw [hE] at hf
          simp only [List.length_append, List.length_cons] at hf
          have hdec : jdumpsMembers [(k, v)] ++ rbrace :: rest
              = '"' :: (k.data.flatMap escapeChar
                  ++ '"' :: (':' :: ' ' :: (jdumpsV v ++ rbrace :: rest))) := by
            show dumpStr k ++ ':' :: ' ' :: jdumpsV v ++ rbrace :: rest = _
            simp [dumpStr]
          have hv := rtVal v f (rbrace :: rest) hwf.1 (by omega) (by rfl)
          rw [hdec, readMembers, dropWs_cons_not_ws (by decide)]
          simp only [readStrBody_dump,
            dropWs_cons_not_ws (show isJsonWs ':' = false from by decide),
            readVal_skip_ws f (show isJsonWs ' ' = true from by decide)]
          rw [hv]
          simp only [dropWs_cons_not_ws (show isJsonWs rbrace = false from by decide)]
          split
          · rename_i r4 heq
            injection heq with he1 _
            exact absurd he1 (by decide)
          · rename_i c r4 heq
            injection heq with he1 he2
            subst he2
            rw [if_pos he1.symm]
          · rename_i heq
            exact absurd heq (by simp)
  | k, v, (km, vm) :: ms, fuel, rest, hwf, hf => by
      cases fuel with
      | zero => omega
      | succ f =>
          simp only [wfJP, Bool.and_eq_true] at hwf
          have hE : jdumpsMembers ((k, v) :: (km, vm) :: ms)
              = dumpStr k ++ ':' :: ' ' :: (jdumpsV v
                  ++ ',' :: ' ' :: jdumpsMembers ((km, vm) :: ms)) := rfl
          rw [hE] at hf
          simp only [List.length_append, List.length_cons] at hf
          have hdec : jdumpsMembers ((k, v) :: (km, vm) :: ms) ++ rbrace :: rest
              = '"' :: (k.data.flatMap escapeChar
                  ++ '"' :: (':' :: ' ' :: (jdumpsV v
                      ++ ',' :: ' ' :: (jdumpsMembers ((km, vm) :: ms)
                          ++ rbrace :: rest)))) := by
            show dumpStr k ++ ':' :: ' ' :: (jdumpsV v
                ++ ',' :: ' ' :: jdumpsMembers ((km, vm) :: ms)) ++ rbrace :: rest = _
            simp [dumpStr]
          have hv := rtVal v f
            (',' :: ' ' :: (jdumpsMembers ((km, vm) :: ms) ++ rbrace :: rest))
            hwf.1 (by omega) (by rfl)
          have key := rtMembers km vm ms f rest
            (by simp only [wfJP, Bool.and_eq_true]; exact hwf.2) (by omega)
          rw [hdec, readMembers, dropWs_cons_not_ws (by decide)]
          simp only [readStrBody_dump,
            dropWs_cons_not_ws (show isJsonWs ':' = false from by decide),
            readVal_skip_ws f (show isJsonWs ' ' = true from by decide)]
          rw [hv]
          simp only [dropWs_cons_not_ws (show isJsonWs ',' = false from by decide),
            readMembers_skip_ws f (show isJsonWs ' ' = true from by decide)]
          rw [key]
  termination_by _ v kvs _ _ _ _ => sizeOf v + sizeOf kvs

end

/-- The codec round trip: `json.loads (json.dumps v) = v` for every value
whose dicts have distinct keys. -/
theorem jloads_jdumps (v : JVal) (h : wfJ v = true) : jloads (jdumps v) = some v := by
  have hr := rtVal v ((jdumpsV v).length + 1) [] h (by omega) (by rfl)
  rw [List.append_nil] at hr
  unfold jloads jdumps
  have hlen : (String.mk (jdumpsV v)).length = (jdumpsV v).length := rfl
  have hlist : (String.mk (jdumpsV v)).toList = jdumpsV v := rfl
  rw [hlen, hlist, hr]
  rfl

/-! ### `_fix_json_escapes` (ai_providers.py)

The Python function runs three regex passes over the text and then restores
placeholders:
1. protect `\uXXXX` escapes by replacing each with `__VALID_ESCAPE_{n}__`,
2. protect the single-character escapes `\" \\ \/ \b \f \n \r \t` the same
   way (the counter keeps running),
3. double the backslash of every remaining `\c` (`.` does not match a
   newline, so a backslash before a newline is left alone),
then substitutes every placeholder back (in insertion order, each occurrence).
Each pass is modelled as the left-to-right non-overlapping scan that
`re.sub` performs. -/

/-- Hexadecimal digit test (`[0-9a-fA-F]`). -/
def isHexDigit (c : Char) : Bool :=
  ('0' ≤ c && c ≤ '9') || ('a' ≤ c && c ≤ 'f') || ('A' ≤ c && c ≤ 'F')

/-- The text of placeholder number `n` (`str(n)` rendered with the
kernel-computable `Nat.toDigits`). -/
def placeholderChars (n : Nat) : List Char :=
  "__VALID_ESCAPE_".data ++ Nat.toDigits 10 n ++ "__".data

/-- Pass 1: replace each `\uXXXX` with a placeholder, collecting
`(placeholder, original)` pairs in match order. -/
def protectUF : Nat → List Char → Nat →
    List Char × List (List Char × List Char) × Nat
  | 0, cs, n => (cs, [], n)
  | _ + 1, [], n => ([], [], n)
  | fuel + 1, '\\' :: rest, n =>
      match rest with
      | 'u' :: a :: b :: c :: d :: rest' =>
          if isHexDigit a && isHexDigit b && isHexDigit c && isHexDigit d then
            let (out, ps, n') := protectUF fuel rest' (n + 1)
            (placeholderChars n ++ out,
              (placeholderChars n, ['\\', 'u', a, b, c, d]) :: ps, n')
          else
            let (out, ps, n') := protectUF fuel rest n
            ('\\' :: out, ps, n')
      | _ =>
          let (out, ps, n') := protectUF fuel rest n
          ('\\' :: out, ps, n')
  | fuel + 1, c :: rest, n =>
      let (out, ps, n') := protectUF fuel rest n
      (c :: out, ps, n')

/-- Pass 1 at fuel equal to the input length (each step consumes at least
one character, so this fuel always suffices). -/
def protectU (cs : List Char) (n : Nat) :
    List Char × List (List Char × List Char) × Nat :=
  protectUF cs.length cs n

/-- The characters protected by the second pass (`["\\/bfnrt]`). -/
def isProtChar (c : Char) : Bool :=
  c = '"' || c = '\\' || c = '/' || c = 'b' || c = 'f' || c = 'n' || c = 'r' || c = 't'

/-- Pass 2: replace each `\c` with `c` in the protected class by a
placeholder, continuing the counter. -/
def protectSF : Nat → List Char → Nat →
    List Char × List (List Char × List Char) × Nat
  | 0, cs, n => (cs, [], n)
  | _ + 1, [], n => ([], [], n)
  | fuel + 1, '\\' :: rest, n =>
      match rest with
      | e :: rest' =>
          if isProtChar e then
            let (out, ps, n') := protectSF fuel rest' (n + 1)
            (placeholderChars n ++ out, (placeholderChars n, ['\\', e]) :: ps, n')
          else
            let (out, ps, n') := protectSF fuel rest n
            ('\\' :: out, ps, n')
      | [] =>
          let (out, ps, n') := protectSF fuel rest n
          ('\\' :: out, ps, n')
  | fuel + 1, c :: rest, n =>
      let (out, ps, n') := protectSF fuel rest n
      (c :: out, ps, n')

/-- Pass 2 at fuel equal to the input length. -/
def protectS (cs : List Char) (n : Nat) :
    List Char × List (List Char × List Char) × Nat :=
  protectSF cs.length cs n

/-- Pass 3: double the backslash of every remaining `\c` (`.` does not
match `\n`, so a backslash before a newline is skipped over). -/
def fixInvalidEscF : Nat → List Char → List Char
  | 0, cs => cs
  | _ + 1, [] => []
  | fuel + 1, '\\' :: rest =>
      match rest with
      | c :: rest' =>
          if c = '\n' then '\\' :: fixInvalidEscF fuel rest
          else '\\' :: '\\' :: c :: fixInvalidEscF fuel rest'
      | [] => ['\\']
  | fuel + 1, c :: rest => c :: fixInvalidEscF fuel rest

/-- Pass 3 at fuel equal to the input length. -/
def fixInvalidEsc (cs : List Char) : List Char :=
  fixInvalidEscF cs.length cs

/-- Fuel-indexed worker for `replaceAll`; each recursive step removes at
least one character, so fuel equal to the input length suffices. -/
def replaceAllF : Nat → List Char → List Char → List Char → List Char
  | 0, cs, _, _ => cs
  | _ + 1, [], _, _ => []
  | fuel + 1, c :: rest, pat, rep =>
      if pat.isEmpty then c :: rest
      else
        if pat.isPrefixOf (c :: rest) then
          rep ++ replaceAllF fuel ((c :: rest).drop pat.length) pat rep
        else c :: replaceAllF fuel rest pat rep

/-- Python `str.replace`: replace every non-overlapping occurrence of
`pat` (left to right) by `rep`. -/
def replaceAll (cs pat rep : List Char) : List Char :=
  replaceAllF cs.length cs pat rep

/-- Restore the placeholders, in insertion order. -/
def restoreAll (pairs : List (List Char × List Char)) (content : List Char) :
    List Char :=
  pairs.foldl (fun acc p => replaceAll acc p.1 p.2) content

/-- `_fix_json_escapes`: protect valid escapes, double the rest, restore. -/
def fixJsonEscapes (s : String) : String :=
  let r1 := protectU s.data 0
  let r2 := protectS r1.1 r1.2.2
  let fixed := fixInvalidEsc r2.1
  String.mk (restoreAll (r1.2.1 ++ r2.2.1) fixed)

/-! ### `_parse_json_with_fallback` (ai_providers.py) -/

/-- First index at which `pat` occurs in `cs` (Python `str.find ≥ 0`). -/
def findSub : List Char → List Char → Option Nat
  | cs, pat =>
      if pat.isPrefixOf cs then some 0
      else
        match cs with
        | [] => none
        | _ :: rest => (findSub rest pat).map (· + 1)

/-- Last index of character `c` in `cs` (Python `str.rfind ≥ 0`). -/
def rfindCh (cs : List Char) (c : Char) : Option Nat :=
  match findSub cs.reverse [c] with
  | some i => some (cs.length - 1 - i)
  | none => none

/-- Python `str.strip()` whitespace (ASCII fragment). -/
def isPyWs (c : Char) : Bool :=
  c = ' ' || c = '\t' || c = '\n' || c = '\r' || c = Char.ofNat 11 || c = Char.ofNat 12

/-- Python `str.strip()`. -/
def pyStrip (cs : List Char) : List Char :=
  ((cs.dropWhile isPyWs).reverse.dropWhile isPyWs).reverse

/-- The text strategy 3 hands back to strategies 1–2: the stripped content
of the first ```json fence, when the fence is present and closed. -/
def fenceCandidate (cs : List Char) : Option String :=
  match findSub cs "```json".data with
  | none => none
  | some i =>
      let jsonStart := i + 7
      match (findSub (cs.drop jsonStart) "```".data).map (· + jsonStart) with
      | none => none
      | some jsonEnd =>
          if jsonEnd > jsonStart then
            some (String.mk (pyStrip ((cs.take jsonEnd).drop jsonStart)))
          else none

/-- The text strategy 4 hands back to strategies 1–2: the substring from
the first `{` to the last `}`, when both exist in that order. -/
def braceCandidate (cs : List Char) : Option String :=
  match findSub cs [lbrace], rfindCh cs rbrace with
  | some i, some j =>
      if j > i then some (String.mk ((cs.take (j + 1)).drop i)) else none
  | _, _ => none

/-- `_parse_json_with_fallback`, translated with the source's control flow:
nested try/except falling through strategy by strategy, raising a decode
error that carries the original text when everything failed. -/
def parseJsonWithFallback (content : String) : Except String JVal :=
  match jloads content with
  | some j => .ok j
  | none =>
  match jloads (fixJsonEscapes content) with
  | some j => .ok j
  | none =>
  match
    (match fenceCandidate content.data with
     | none => none
     | some extracted =>
         match jloads extracted with
         | some j => some j
         | none => jloads (fixJsonEscapes extracted)) with
  | some j => .ok j
  | none =>
  match
    (match braceCandidate content.data with
     | none => none
     | some extracted =>
         match jloads extracted with
         | some j => some j
         | none => jloads (fixJsonEscapes extracted)) with
  | some j => .ok j
  | none => .error content

/-! ### Data model (models.py, config.py)

`Finding.metadata` is a free-form dict in the source; the engine reads the
keys `"confidence"` (a string tier), `"ai_analysis_recommended"` (truthiness)
and `"description"` (prompt text only), which is what `RuleMetadata` holds.
`remediation` and the dynamic verdict fields hold whatever Python value the
code assigns, hence `JVal` (dataclass annotations are not enforced at
runtime, and `finding.remediation = verdict.enhanced_remediation` copies the
raw parsed value). -/

/-- The five severity levels (`Severity(str, Enum)`). -/
inductive Severity where
  | critical : Severity
  | high : Severity
  | medium : Severity
  | low : Severity
  | info : Severity
deriving DecidableEq, Repr

/-- Source location of a finding. -/
structure Location where
  file_path : String
  start_line : Int
  start_column : Int
  end_line : Int
  end_column : Int
  snippet : Option String
deriving DecidableEq, Repr

/-- The metadata keys the AI engine reads off `finding.metadata`. -/
structure RuleMetadata where
  confidence : Option String
  ai_analysis_recommended : Bool
  description : Option String
deriving DecidableEq, Repr

/-- `AIVerdict`: the parsed analysis result attached to a finding.
`confidence` has been through `float(...)`; the other response-derived
fields keep the raw parsed value (`null` when the response omitted them
and no string default applies). -/
structure AIVerdict where
  is_false_positive : JVal
  confidence : ℚ
  reasoning : JVal
  suggested_severity : Option Severity
  enhanced_remediation : JVal
  additional_context : JVal
deriving Repr

/-- A security finding. -/
structure Finding where
  rule_id : String
  message : String
  severity : Severity
  category : String
  location : Location
  cwe : Option String
  remediation : JVal
  metadata : RuleMetadata
  ai_analysis : Option AIVerdict
  ai_filtered : Bool
  source : String
deriving Repr

/-- The AI-relevant slice of `ScanConfig` (config.py; `ai_max_findings` is
read by the engine off the config object). -/
structure ScanConfig where
  ai_confidence_threshold : ℚ
  ai_batch_size : Nat
  ai_cache_enabled : Bool
  ai_analyze_rules : Option (List String)
  ai_max_findings : Option Nat
deriving Repr

/-! ### Candidate selection (`_filter_findings_for_analysis`) -/

/-- `finding.metadata.get("confidence", "medium")`. -/
def ruleConfidence (f : Finding) : String := f.metadata.confidence.getD "medium"

/-- The no-allowlist inclusion rule: recommended, or tier in
`("medium", "low")`. -/
def includeNoAllowlist (f : Finding) : Bool :=
  f.metadata.ai_analysis_recommended
    || (ruleConfidence f == "medium" || ruleConfidence f == "low")

/-- Per-finding inclusion decision of the selector loop.  Python's
`if self.config.ai_analyze_rules:` is truthiness: `None` and the empty
list both fall through to confidence-based filtering. -/
def includeForAnalysis (cfg : ScanConfig) (f : Finding) : Bool :=
  match cfg.ai_analyze_rules with
  | some rules =>
      if rules.isEmpty then includeNoAllowlist f
      else rules.contains f.rule_id || f.metadata.ai_analysis_recommended
  | none => includeNoAllowlist f

/-- The `severity_order` table.  The dict lookup's default `99` is dead
code for values of the `Severity` enum, which the table covers. -/
def severityOrder : Severity → Nat
  | .critical => 0
  | .high => 1
  | .medium => 2
  | .low => 3
  | .info => 4

/-- The sort key comparison used by `filtered.sort(key=...)`. -/
def sevRel (a b : Finding) : Prop :=
  severityOrder a.severity ≤ severityOrder b.severity

instance : DecidableRel sevRel := fun _ _ => Nat.decLe _ _

instance : IsTotal Finding sevRel := ⟨fun _ _ => Nat.le_total _ _⟩

instance : IsTrans Finding sevRel := ⟨fun _ _ _ => Nat.le_trans⟩

/-- `_filter_findings_for_analysis`: inclusion filter, stable sort by
severity rank (Python `list.sort` is stable; modelled by the stable
`List.insertionSort`, which places each earlier element before its later
ties exactly as a stable sort must), then the optional truthy cap. -/
def filterFindingsForAnalysis (cfg : ScanConfig) (findings : List Finding) :
    List Finding :=
  let filtered := findings.filter (includeForAnalysis cfg)
  let sorted := List.insertionSort sevRel filtered
  match cfg.ai_max_findings with
  | some n => if n ≠ 0 ∧ sorted.length > n then sorted.take n else sorted
  | none => sorted

/-! ### Cache key (`_get_cache_key`) -/

/-- `_get_cache_key`: `f"{rule_id}:{md5(f'{rule_id}:{snippet}:{line}')}"`.
The md5 hexdigest is modelled as the hashed text itself: md5 is a
deterministic function of it, and the code only ever compares keys for
equality.  The `file_content` parameter of the Python function is unused
there, as is the file path: the key depends only on rule id, snippet and
start line. -/
def getCacheKey (f : Finding) : String :=
  let snippet := f.location.snippet.getD ""
  let hashed := f.rule_id ++ ":" ++ snippet ++ ":" ++ toString f.location.start_line
  f.rule_id ++ ":" ++ hashed

/-! ### Verdict construction (`_analyze_finding`, response handling) -/

/-- Python truthiness of a parsed JSON value. -/
def jTruthy : JVal → Bool
  | .null => false
  | .bool b => b
  | .num m _ => m ≠ 0
  | .str s => !s.isEmpty
  | .arr xs => !xs.isEmpty
  | .obj kvs => !kvs.isEmpty

/-- Python `str.lower()` (ASCII fragment). -/
def pyLower (s : String) : String := String.mk (s.data.map Char.toLower)

/-- Python `str.strip()` on a string. -/
def pyStripStr (s : String) : String := String.mk (pyStrip s.data)

/-- Python `str(value)` for a parsed JSON value.  For lists and dicts only
the bracketed shape matters here (the result is compared against severity
tokens, which it can never equal), so a bracketed stand-in is used. -/
def pyStr : JVal → String
  | .str s => s
  | .bool true => "True"
  | .bool false => "False"
  | .null => "None"
  | .num m f => String.mk (decimalChars m f)
  | .arr _ => "[...]"
  | .obj _ => String.mk (lbrace :: "...".data ++ [rbrace])

/-- Python `float(value)` on a parsed JSON value, `none` when it raises.
Numbers and booleans coerce; strings coerce when they read as a plain
signed decimal (scientific notation, `inf`/`nan` are outside the model;
no claim depends on them); everything else raises. -/
def pyFloat : JVal → Option ℚ
  | .num m f => some (JVal.numVal m f)
  | .bool b => some (if b then 1 else 0)
  | .str s =>
      match readNum (pyStrip s.data) with
      | some ((m, f), []) => some (JVal.numVal m f)
      | _ => none
  | _ => none

/-- `severity_str in [s.value for s in Severity]` followed by
`Severity(severity_str)` (the `try/except` around it is unreachable). -/
def severityFromToken (s : String) : Option Severity :=
  if s = "critical" then some .critical
  else if s = "high" then some .high
  else if s = "medium" then some .medium
  else if s = "low" then some .low
  else if s = "info" then some .info
  else none

/-- Build the `AIVerdict` from a parsed response (ai_engine.py lines
406–431).  A non-dict response makes `response.get` raise, and a
confidence value `float()` cannot coerce raises — both are caught by the
surrounding `except`, so both yield `none` (analysis failed). -/
def constructVerdict (response : JVal) : Option AIVerdict :=
  match response with
  | .obj kvs =>
      let sugV := (kvs.lookup "suggested_severity").getD JVal.null
      let suggested : Option Severity :=
        if jTruthy sugV then severityFromToken (pyStripStr (pyLower (pyStr sugV)))
        else none
      match pyFloat ((kvs.lookup "confidence").getD (JVal.num 5 1)) with
      | none => none
      | some conf =>
          some {
            is_false_positive := (kvs.lookup "is_false_positive").getD (JVal.bool false)
            confidence := conf
            reasoning := (kvs.lookup "reasoning").getD (JVal.str "No reasoning provided")
            suggested_severity := suggested
            enhanced_remediation := (kvs.lookup "enhanced_remediation").getD JVal.null
            additional_context := (kvs.lookup "additional_context").getD (JVal.obj []) }
  | _ => none

/-! ### The engine (`_analyze_finding`, `filter_false_positives`)

State passing: `EngineState` carries the in-memory cache (`self.cache`, a
dict: overwrite in place, append otherwise) and the number of provider
invocations made so far.  The provider is an oracle mapping the invocation
index to its outcome: `.error ()` for any raised exception (API error, or a
parse failure inside `provider.analyze`), `.ok response` for a parsed
mapping.  Prompt construction feeds only the provider, so it is absorbed
into the oracle. -/

/-- Engine-local state: verdict cache and number of provider calls. -/
structure EngineState where
  cache : List (String × AIVerdict)
  calls : Nat
deriving Repr

/-- Python dict write `self.cache[key] = verdict`. -/
def cachePut (k : String) (v : AIVerdict) :
    List (String × AIVerdict) → List (String × AIVerdict)
  | [] => [(k, v)]
  | (k', v') :: rest => if k' = k then (k, v) :: rest else (k', v') :: cachePut k v rest

/-- `_analyze_finding`: cache check, provider call, verdict construction,
cache write only on success; any exception yields `none` with nothing
cached. -/
def analyzeFinding (cfg : ScanConfig) (oracle : Nat → Except Unit JVal)
    (st : EngineState) (f : Finding) : Option AIVerdict × EngineState :=
  let key := getCacheKey f
  match if cfg.ai_cache_enabled then st.cache.lookup key else none with
  | some v => (some v, st)
  | none =>
      let st' : EngineState := { st with calls := st.calls + 1 }
      match oracle st.calls with
      | .error _ => (none, st')
      | .ok response =>
          match constructVerdict response with
          | none => (none, st')
          | some v =>
              if cfg.ai_cache_enabled then
                (some v, { st' with cache := cachePut key v st.cache })
              else (some v, st')

/-- The per-finding body of the `filter_false_positives` loop: attach the
verdict, apply enhanced remediation when truthy, then either mark the
finding filtered (excluded from the output) or keep it; a failed analysis
keeps the finding unmodified. -/
def processOne (cfg : ScanConfig) (oracle : Nat → Except Unit JVal)
    (st : EngineState) (f : Finding) : (Finding × Bool) × EngineState :=
  match analyzeFinding cfg oracle st f with
  | (some v, st') =>
      let f1 := { f with ai_analysis := some v }
      let f2 :=
        if jTruthy v.enhanced_remediation then
          { f1 with remediation := v.enhanced_remediation, source := "ai-enhanced" }
        else f1
      if jTruthy v.is_false_positive
          && decide (v.confidence ≥ cfg.ai_confidence_threshold) then
        (({ f2 with ai_filtered := true }, false), st')
      else ((f2, true), st')
  | (none, st') => ((f, true), st')

/-- Process the selected findings in order, threading the state. -/
def processAll (cfg : ScanConfig) (oracle : Nat → Except Unit JVal) :
    EngineState → List Finding → List (Finding × Bool) × EngineState
  | st, [] => ([], st)
  | st, f :: fs =>
      let (r, st') := processOne cfg oracle st f
      let (rs, st'') := processAll cfg oracle st' fs
      (r :: rs, st'')

/-- File paths in order of first occurrence (`defaultdict` insertion
order). -/
def firstKeys : List String → List String
  | [] => []
  | k :: ks => k :: (firstKeys ks).filter (· ≠ k)

/-- The grouping of the selected findings by file path: the loop over
`findings_by_file` visits files in first-occurrence order and each file's
findings in selected order.  Batch slicing within a file is consecutive
and in order (it only affects logging), so the processing order is exactly
this flattened grouping. -/
def groupByFile (fs : List Finding) : List Finding :=
  (firstKeys (fs.map (·.location.file_path))).flatMap
    (fun p => fs.filter (·.location.file_path == p))

/-- `filter_false_positives`, for an initialized provider: select, group,
process, then append the findings whose rule id was not analyzed.  Returns
the output list together with the final engine state. -/
def filterFalsePositives (cfg : ScanConfig) (oracle : Nat → Except Unit JVal)
    (findings : List Finding) : List Finding × EngineState :=
  let st0 : EngineState := { cache := [], calls := 0 }
  if findings.isEmpty then (findings, st0)
  else
    let findingsToAnalyze := filterFindingsForAnalysis cfg findings
    if findingsToAnalyze.isEmpty then (findings, st0)
    else
      let res := processAll cfg oracle st0 (groupByFile findingsToAnalyze)
      let kept := (res.1.filter (·.2)).map (·.1)
      let analyzedRuleIds := findingsToAnalyze.map (·.rule_id)
      (kept ++ findings.filter (fun f => !(analyzedRuleIds.contains f.rule_id)),
        res.2)

/-! ### `AnthropicProvider.analyze`, response handling -/

/-- Python `needle in haystack`. -/
def strContains (hay needle : String) : Bool := (findSub hay.data needle.data).isSome

/-- The structured response Anthropic's provider synthesizes when every
JSON recovery strategy fails on the response text. -/
def anthropicFallbackVerdict (content : String) : JVal :=
  .obj [("is_false_positive", .bool (strContains (pyLower content) "false positive")),
        ("confidence", .num 5 1),
        ("reasoning", .str content)]

/-- `AnthropicProvider.analyze`, response handling: parse with the full
fallback cascade, and on a decode error return the synthesized mapping
instead of raising. -/
def anthropicAnalyze (content : String) : JVal :=
  match parseJsonWithFallback content with
  | .ok j => j
  | .error _ => anthropicFallbackVerdict content

/-! ### Spec-side definitions

These restate claim language, to be compared with the definitions
translated from the source; they are not themselves translations. -/

/-- Modelled from the claim (C3): the per-finding selection policy as the
spec words it — with an allowlist configured (present and non-empty, since
Python truthiness treats an empty list as no allowlist), include iff the
rule id is listed or the metadata recommends AI analysis; with none,
include iff recommended or the confidence tier (default `"medium"`) is
`"medium"` or `"low"`. -/
def specSelect (cfg : ScanConfig) (f : Finding) : Bool :=
  match cfg.ai_analyze_rules with
  | some rules =>
      if rules.isEmpty then
        f.metadata.ai_analysis_recommended
          || (f.metadata.confidence.getD "medium" == "medium"
              || f.metadata.confidence.getD "medium" == "low")
      else rules.contains f.rule_id || f.metadata.ai_analysis_recommended
  | none =>
      f.metadata.ai_analysis_recommended
        || (f.metadata.confidence.getD "medium" == "medium"
            || f.metadata.confidence.getD "medium" == "low")

/-- Modelled from the claim (C8): strategy 1, direct parse. -/
def strategy1 (content : String) : Option JVal := jloads content

/-- Modelled from the claim (C8): strategy 2, escape repair then parse. -/
def strategy2 (content : String) : Option JVal := jloads (fixJsonEscapes content)

/-- Modelled from the claim (C8): strategy 3, markdown ```json fence
extraction with strategies 1–2 re-applied to the extracted text. -/
def strategy3 (content : String) : Option JVal :=
  match fenceCandidate content.data with
  | none => none
  | some e =>
      match strategy1 e with
      | some j => some j
      | none => strategy2 e

/-- Modelled from the claim (C8): strategy 4, first-`{`-to-last-`}`
substring with strategies 1–2 re-applied. -/
def strategy4 (content : String) : Option JVal :=
  match braceCandidate content.data with
  | none => none
  | some e =>
      match strategy1 e with
      | some j => some j
      | none => strategy2 e

/-- First success in a list of strategy results. -/
def firstSome : List (Option JVal) → Option JVal
  | [] => none
  | some j :: _ => some j
  | none :: rest => firstSome rest

/-! ### Concrete fixtures for the claims -/

/-- A finding fixture: rule id, severity, file path, line, optional
confidence tier, recommended flag. -/
def mkFinding (rid : String) (sev : Severity) (path : String) (line : Int)
    (conf : Option String := none) (rec : Bool := false) : Finding :=
  { rule_id := rid, message := "msg", severity := sev, category := "other",
    location := { file_path := path, start_line := line, start_column := 1,
                  end_line := line, end_column := 2, snippet := some "snippet" },
    cwe := none, remediation := JVal.null,
    metadata := { confidence := conf, ai_analysis_recommended := rec,
                  description := none },
    ai_analysis := none, ai_filtered := false, source := "semgrep" }

/-- A config fixture with defaults (threshold 0.7, no allowlist, no cap). -/
def mkConfig : ScanConfig :=
  { ai_confidence_threshold := mkRat 7 10, ai_batch_size := 10,
    ai_cache_enabled := true, ai_analyze_rules := none, ai_max_findings := none }

/-- An oracle that always returns the given parsed response. -/
def constOracle (resp : JVal) : Nat → Except Unit JVal := fun _ => .ok resp

/-- An oracle whose every call raises. -/
def failOracle : Nat → Except Unit JVal := fun _ => .error ()

/-- The initial engine state: empty cache, no calls made. -/
def st0 : EngineState := { cache := [], calls := 0 }

/-- A false-positive verdict response with the given confidence value. -/
def fpResponse (conf : JVal) : JVal :=
  .obj [("is_false_positive", .bool true), ("confidence", conf),
        ("reasoning", .str "pattern is sanitized")]

/-! ### C1 -/

/-- A cap of one selected finding. -/
def c1cfg : ScanConfig := { mkConfig with ai_max_findings := some 1 }

/-- Two findings of the same rule in different files; both eligible
(default `"medium"` tier), the cap keeps only the first. -/
def c1fA : Finding := mkFinding "dup-rule" .high "a.py" 1

/-- The second `dup-rule` finding, not selected under the cap. -/
def c1fB : Finding := mkFinding "dup-rule" .low "b.py" 9

/-- **C1** (against the claim; code bug).  The claim — and the spec — say a
finding the Candidate Selector did not select passes through to the output
unmodified, regardless of the rule ids of the selected findings.  The
re-add loop of `filter_false_positives`, however, keys on *rule id*
(`finding.rule_id not in analyzed_rule_ids`), so an unselected finding
whose rule id was also carried by a selected finding is silently dropped.
Failing input: two findings of rule `dup-rule` with the max-findings cap at
1 and a provider whose call raises.  `c1fB` is eligible but not selected,
yet the output is `[c1fA]` only — nothing in it comes from `b.py` — even
though with AI disabled both findings would have survived. -/
theorem c1_unselected_finding_dropped :
    includeForAnalysis c1cfg c1fB = true
    ∧ filterFindingsForAnalysis c1cfg [c1fA, c1fB] = [c1fA]
    ∧ (filterFalsePositives c1cfg failOracle [c1fA, c1fB]).1 = [c1fA]
    ∧ ∀ g ∈ (filterFalsePositives c1cfg failOracle [c1fA, c1fB]).1,
        g.location.file_path ≠ "b.py" := by
  refine ⟨rfl, rfl, rfl, ?_⟩
  intro g hg
  have hout : (filterFalsePositives c1cfg failOracle [c1fA, c1fB]).1 = [c1fA] := rfl
  rw [hout] at hg
  simp only [List.mem_singleton] at hg
  subst hg
  decide

/-- Witness for C1: the surviving output member is the `a.py` finding. -/
theorem c1_unselected_finding_dropped_witness :
    c1fA.location.file_path ≠ "b.py" :=
  c1_unselected_finding_dropped.2.2.2 c1fA (by
    have h : (filterFalsePositives c1cfg failOracle [c1fA, c1fB]).1 = [c1fA] := rfl
    rw [h]
    exact List.mem_singleton.mpr rfl)

/-! ### C2 -/

/-- A medium-confidence finding for the threshold scenarios. -/
def c2f : Finding := mkFinding "py.sqli" .high "app.py" 42 (some "medium")

/-- The verdict constructed from `fpResponse (.num 9 1)`. -/
def c2v : AIVerdict :=
  { is_false_positive := .bool true, confidence := JVal.numVal 9 1,
    reasoning := .str "pattern is sanitized", suggested_severity := none,
    enhanced_remediation := JVal.null, additional_context := .obj [] }

/-- **C2** (confirmed).  A finding whose analysis produced a verdict is
excluded from the output (and marked `ai_filtered`) iff the verdict's
`is_false_positive` is truthy and its confidence is at least the
configured threshold; with threshold 0.70 a false-positive verdict at
confidence 0.70 is filtered (and the processed record shows
`ai_filtered = true`, excluded) while confidence 0.69 is retained
unfiltered with the verdict attached. -/
theorem c2_threshold_gate :
    (∀ (cfg : ScanConfig) (oracle : Nat → Except Unit JVal) (st : EngineState)
        (f : Finding) (v : AIVerdict) (st₂ : EngineState),
      analyzeFinding cfg oracle st f = (some v, st₂) →
        (((processOne cfg oracle st f).1.2 = false
            ∧ (processOne cfg oracle st f).1.1.ai_filtered = true)
          ↔ (jTruthy v.is_false_positive = true
              ∧ cfg.ai_confidence_threshold ≤ v.confidence)))
    ∧ (processAll mkConfig (constOracle (fpResponse (.num 70 2))) st0 [c2f]).1.map
        (fun r => (r.1.ai_filtered, r.2)) = [(true, false)]
    ∧ (filterFalsePositives mkConfig (constOracle (fpResponse (.num 70 2))) [c2f]).1 = []
    ∧ (filterFalsePositives mkConfig (constOracle (fpResponse (.num 69 2))) [c2f]).1.map
        (fun g => (g.ai_filtered, g.ai_analysis.isSome)) = [(false, true)] := by
  refine ⟨?_, by decide, by rfl, by decide⟩
  intro cfg oracle st f v st₂ h
  simp only [processOne, h]
  by_cases hfp : jTruthy v.is_false_positive = true
  · by_cases hconf : cfg.ai_confidence_threshold ≤ v.confidence
    · simp [hfp, hconf, ge_iff_le]
    · simp [hfp, hconf, ge_iff_le]
  · simp [hfp]

/-- Witness for C2: the general gate applied at a concrete verdict. -/
theorem c2_threshold_gate_witness :
    ((processOne mkConfig (constOracle (fpResponse (.num 9 1))) st0 c2f).1.2 = false
        ∧ (processOne mkConfig (constOracle (fpResponse (.num 9 1))) st0 c2f).1.1.ai_filtered
            = true)
      ↔ (jTruthy c2v.is_false_positive = true
          ∧ mkConfig.ai_confidence_threshold ≤ c2v.confidence) :=
  c2_threshold_gate.1 mkConfig (constOracle (fpResponse (.num 9 1))) st0 c2f c2v
    ⟨[("py.sqli:py.sqli:snippet:42", c2v)], 1⟩ rfl

/-! ### C3 -/

/-- The loop's inclusion test agrees with the claim's wording pointwise. -/
theorem includeForAnalysis_eq_specSelect (cfg : ScanConfig) (f : Finding) :
    includeForAnalysis cfg f = specSelect cfg f := by
  unfold includeForAnalysis specSelect includeNoAllowlist ruleConfidence
  cases cfg.ai_analyze_rules <;> rfl

/-- **C3** (confirmed).  Without a truthy max-findings cap, the selector's
output is, as a multiset, exactly the findings passing the claim's
per-finding policy (`specSelect`): allowlist configured (non-empty) —
listed rule id or recommended; no allowlist — recommended or tier
(default `"medium"`) in `("medium", "low")`.  And in every configuration
without a truthy allowlist, no selected finding has tier `"high"` without
being recommended. -/
theorem c3_selection_policy :
    (∀ (cfg : ScanConfig) (findings : List Finding),
      (cfg.ai_max_findings = none ∨ cfg.ai_max_findings = some 0) →
      (filterFindingsForAnalysis cfg findings).Perm
        (findings.filter (specSelect cfg)))
    ∧ (∀ (cfg : ScanConfig) (findings : List Finding) (f : Finding),
        f ∈ filterFindingsForAnalysis cfg findings →
        (cfg.ai_analyze_rules = none ∨ cfg.ai_analyze_rules = some []) →
        ruleConfidence f = "high" →
        f.metadata.ai_analysis_recommended = false → False) := by
  constructor
  · intro cfg findings hcap
    have hfe : findings.filter (includeForAnalysis cfg)
        = findings.filter (specSelect cfg) :=
      List.filter_congr (fun f _ => includeForAnalysis_eq_specSelect cfg f)
    unfold filterFindingsForAnalysis
    rcases hcap with h | h <;> simp only [h]
    · rw [hfe]
      exact List.perm_insertionSort sevRel _
    · simp only [ne_eq, not_true_eq_false, false_and, if_false]
      rw [hfe]
      exact List.perm_insertionSort sevRel _
  · intro cfg findings f hf hlist hconf hrec
    have hmem : f ∈ List.insertionSort sevRel
        (findings.filter (includeForAnalysis cfg)) := by
      simp only [filterFindingsForAnalysis] at hf
      rcases hcap : cfg.ai_max_findings with _ | n
      · rwa [hcap] at hf
      · simp only [hcap] at hf
        by_cases hc : n ≠ 0 ∧ (List.insertionSort sevRel
            (List.filter (includeForAnalysis cfg) findings)).length > n
        · rw [if_pos hc] at hf
          exact List.mem_of_mem_take hf
        · rwa [if_neg hc] at hf
    have hinc : includeForAnalysis cfg f = true :=
      List.of_mem_filter ((List.mem_insertionSort sevRel).mp hmem)
    unfold includeForAnalysis includeNoAllowlist at hinc
    rcases hlist with h | h <;>
      simp [h, hrec, hconf, ruleConfidence] at hinc <;>
      revert hinc <;>
      unfold ruleConfidence at hconf <;>
      rw [hconf] <;>
      decide

/-- Witness for C3: the policy agreement at a concrete input. -/
theorem c3_selection_policy_witness :
    (filterFindingsForAnalysis mkConfig [c2f]).Perm
      ([c2f].filter (specSelect mkConfig)) :=
  c3_selection_policy.1 mkConfig [c2f] (Or.inl rfl)

/-! ### C4 -/

/-- Stability of the severity sort: within one severity rank, the sorted
list carries exactly the filtered input's subsequence, in input order. -/
theorem filter_rank_insertionSort (l : List Finding) (r : Nat) :
    (List.insertionSort sevRel l).filter (fun f => severityOrder f.severity == r)
      = l.filter (fun f => severityOrder f.severity == r) := by
  set p : Finding → Bool := fun f => severityOrder f.severity == r with hp
  have hmemp : ∀ a ∈ l.filter p, p a = true := fun a ha => List.of_mem_filter ha
  have hpair : (l.filter p).Pairwise sevRel := by
    refine List.pairwise_of_forall_mem_list ?_
    intro a ha b hb
    have hpa := hmemp a ha
    have hpb := hmemp b hb
    simp only [hp, beq_iff_eq] at hpa hpb
    unfold sevRel
    omega
  have h1 : (l.filter p).Sublist (List.insertionSort sevRel l) :=
    List.sublist_insertionSort hpair (List.filter_sublist l)
  have h2 : (l.filter p).Sublist ((List.insertionSort sevRel l).filter p) := by
    have := List.Sublist.filter p h1
    rwa [List.filter_eq_self.mpr hmemp] at this
  have h3 : ((List.insertionSort sevRel l).filter p).length = (l.filter p).length :=
    ((List.perm_insertionSort sevRel l).filter p).length_eq
  exact (h2.eq_of_length h3.symm).symm

/-- **C4** (confirmed).  The selector's output is sorted by severity rank
ascending; without a truthy cap, each rank's subsequence equals the
eligible input's subsequence of that rank in input order (stability); with
a cap `n ≠ 0` the output is exactly the length-`n` prefix of the no-cap
(sorted) output; and the spec's scenario — severities
`[low, critical, high, info]` with cap 2 — selects the critical and high
findings in that order. -/
theorem c4_priority_order :
    (∀ (cfg : ScanConfig) (findings : List Finding),
      (filterFindingsForAnalysis cfg findings).Pairwise sevRel)
    ∧ (∀ (cfg : ScanConfig) (findings : List Finding) (r : Nat),
        (cfg.ai_max_findings = none ∨ cfg.ai_max_findings = some 0) →
        (filterFindingsForAnalysis cfg findings).filter
            (fun f => severityOrder f.severity == r)
          = (findings.filter (includeForAnalysis cfg)).filter
              (fun f => severityOrder f.severity == r))
    ∧ (∀ (cfg : ScanConfig) (findings : List Finding) (n : Nat),
        cfg.ai_max_findings = some n → n ≠ 0 →
        filterFindingsForAnalysis cfg findings
          = (filterFindingsForAnalysis { cfg with ai_max_findings := none }
              findings).take n)
    ∧ (filterFindingsForAnalysis { mkConfig with ai_max_findings := some 2 }
          [mkFinding "r1" .low "a.py" 1, mkFinding "r2" .critical "a.py" 2,
           mkFinding "r3" .high "a.py" 3, mkFinding "r4" .info "a.py" 4]).map
        Finding.rule_id = ["r2", "r3"] := by
  refine ⟨?_, ?_, ?_, by rfl⟩
  · intro cfg findings
    have hs : (List.insertionSort sevRel
        (findings.filter (includeForAnalysis cfg))).Pairwise sevRel :=
      List.sorted_insertionSort sevRel _
    simp only [filterFindingsForAnalysis]
    rcases cfg.ai_max_findings with _ | n
    · exact hs
    · show List.Pairwise sevRel (if n ≠ 0 ∧ (List.insertionSort sevRel
          (List.filter (includeForAnalysis cfg) findings)).length > n then _ else _)
      by_cases hc : n ≠ 0 ∧ (List.insertionSort sevRel
          (List.filter (includeForAnalysis cfg) findings)).length > n
      · rw [if_pos hc]
        exact List.Pairwise.sublist (List.take_sublist _ _) hs
      · rw [if_neg hc]
        exact hs
  · intro cfg findings r hcap
    unfold filterFindingsForAnalysis
    rcases hcap with h | h <;> simp only [h]
    · exact filter_rank_insertionSort _ r
    · simp only [ne_eq, not_true_eq_false, false_and, if_false]
      exact filter_rank_insertionSort _ r
  · intro cfg findings n hcap hn
    have hnone : filterFindingsForAnalysis { cfg with ai_max_findings := none } findings
        = List.insertionSort sevRel (findings.filter (includeForAnalysis cfg)) := rfl
    rw [hnone]
    unfold filterFindingsForAnalysis
    simp only [hcap]
    by_cases hlen : (List.insertionSort sevRel
        (findings.filter (includeForAnalysis cfg))).length > n
    · rw [if_pos ⟨hn, hlen⟩]
    · rw [if_neg (fun hc => absurd hc.2 hlen)]
      exact (List.take_of_length_le (Nat.le_of_not_lt hlen)).symm

/-- Witness for C4: stability and cap prefix at concrete inputs. -/
theorem c4_priority_order_witness :
    ((filterFindingsForAnalysis mkConfig [c2f]).filter
        (fun f => severityOrder f.severity == 1)
      = ([c2f].filter (includeForAnalysis mkConfig)).filter
          (fun f => severityOrder f.severity == 1))
    ∧ filterFindingsForAnalysis c1cfg [c1fA, c1fB]
        = (filterFindingsForAnalysis { c1cfg with ai_max_findings := none }
            [c1fA, c1fB]).take 1 :=
  ⟨c4_priority_order.2.1 mkConfig [c2f] 1 (Or.inl rfl),
   c4_priority_order.2.2.1 c1cfg [c1fA, c1fB] 1 rfl (by decide)⟩

/-! ### C5 -/

/-- The loop body's final state is the analysis step's state: the
filtering decision never touches cache or call count. -/
theorem processOne_state (cfg : ScanConfig) (oracle : Nat → Except Unit JVal)
    (st : EngineState) (f : Finding) :
    (processOne cfg oracle st f).2 = (analyzeFinding cfg oracle st f).2 := by
  rcases h : analyzeFinding cfg oracle st f with ⟨_ | v, st'⟩
  · simp [processOne, h]
  · simp only [processOne, h]
    split_ifs <;> rfl

/-- Whatever the filtering decision, a produced verdict is attached. -/
theorem processOne_verdict (cfg : ScanConfig) (oracle : Nat → Except Unit JVal)
    (st : EngineState) (f : Finding) (v : AIVerdict) (st₂ : EngineState)
    (h : analyzeFinding cfg oracle st f = (some v, st₂)) :
    (processOne cfg oracle st f).1.1.ai_analysis = some v := by
  simp only [processOne, h]
  split_ifs <;> rfl

/-- Distinct file paths for the cache-sharing scenario. -/
def c5fA : Finding := mkFinding "r" .high "a.py" 5

/-- Same rule id, snippet and start line as `c5fA`, different file. -/
def c5fB : Finding := mkFinding "r" .high "b.py" 5

/-- **C5** (confirmed).  With caching enabled, two selected findings with
the same rule id, snippet text and start line — file paths free — share
one cache key; processing them in sequence (first analysis succeeding)
makes exactly one provider invocation, and the second finding receives the
cached verdict. -/
theorem c5_cache_dedup :
    ∀ (cfg : ScanConfig) (oracle : Nat → Except Unit JVal) (f1 f2 : Finding)
      (resp : JVal) (v : AIVerdict),
      cfg.ai_cache_enabled = true →
      f1.rule_id = f2.rule_id →
      f1.location.snippet = f2.location.snippet →
      f1.location.start_line = f2.location.start_line →
      oracle 0 = .ok resp →
      constructVerdict resp = some v →
      getCacheKey f1 = getCacheKey f2
      ∧ (processAll cfg oracle st0 [f1, f2]).2.calls = 1
      ∧ (processAll cfg oracle st0 [f1, f2]).1.map (fun r => r.1.ai_analysis)
          = [some v, some v] := by
  intro cfg oracle f1 f2 resp v hcache hrule hsnip hline horacle hcv
  have hkey : getCacheKey f1 = getCacheKey f2 := by
    unfold getCacheKey
    rw [hrule, hsnip, hline]
  have hana1 : analyzeFinding cfg oracle st0 f1
      = (some v, ⟨[(getCacheKey f1, v)], 1⟩) := by
    simp only [analyzeFinding, st0, hcache, if_true, List.lookup_nil, horacle,
      hcv, cachePut]
  have hana2 : analyzeFinding cfg oracle ⟨[(getCacheKey f1, v)], 1⟩ f2
      = (some v, ⟨[(getCacheKey f1, v)], 1⟩) := by
    simp only [analyzeFinding, hcache, if_true, ← hkey]
    simp [List.lookup]
  have hst1 : (processOne cfg oracle st0 f1).2 = ⟨[(getCacheKey f1, v)], 1⟩ := by
    rw [processOne_state, hana1]
  have hst2 : (processOne cfg oracle ⟨[(getCacheKey f1, v)], 1⟩ f2).2
      = ⟨[(getCacheKey f1, v)], 1⟩ := by
    rw [processOne_state, hana2]
  refine ⟨hkey, ?_, ?_⟩
  · simp only [processAll, hst1, hst2]
  · simp only [processAll, hst1, hst2, List.map_cons, List.map_nil,
      processOne_verdict cfg oracle st0 f1 v _ hana1,
      processOne_verdict cfg oracle ⟨[(getCacheKey f1, v)], 1⟩ f2 v _ hana2]

/-- Witness for C5: the dedup run at concrete findings. -/
theorem c5_cache_dedup_witness :
    getCacheKey c5fA = getCacheKey c5fB
    ∧ (processAll mkConfig (constOracle (fpResponse (.num 9 1))) st0
        [c5fA, c5fB]).2.calls = 1
    ∧ (processAll mkConfig (constOracle (fpResponse (.num 9 1))) st0
        [c5fA, c5fB]).1.map (fun r => r.1.ai_analysis) = [some c2v, some c2v] :=
  c5_cache_dedup mkConfig (constOracle (fpResponse (.num 9 1))) c5fA c5fB
    (fpResponse (.num 9 1)) c2v rfl rfl rfl rfl rfl rfl

/-! ### C6 -/

/-- **C6** (confirmed).  On a cache miss, when the provider call raises or
verdict construction fails, the analysis yields no verdict and exactly the
same cache (one more call counted); the per-finding loop body keeps the
finding byte-for-byte unmodified and processing continues with the rest;
the cache never changes on a failed analysis; and a cache entry is written
exactly when the parsed verdict is constructed. -/
theorem c6_failure_keeps_finding :
    (∀ (cfg : ScanConfig) (oracle : Nat → Except Unit JVal) (st : EngineState)
        (f : Finding),
      (if cfg.ai_cache_enabled then st.cache.lookup (getCacheKey f) else none)
          = none →
      (oracle st.calls = .error ()
        ∨ ∃ r, oracle st.calls = .ok r ∧ constructVerdict r = none) →
      analyzeFinding cfg oracle st f = (none, ⟨st.cache, st.calls + 1⟩)
        ∧ processOne cfg oracle st f = ((f, true), ⟨st.cache, st.calls + 1⟩)
        ∧ ∀ rest, (processAll cfg oracle st (f :: rest)).1
            = (f, true) :: (processAll cfg oracle ⟨st.cache, st.calls + 1⟩ rest).1)
    ∧ (∀ (cfg : ScanConfig) (oracle : Nat → Except Unit JVal) (st : EngineState)
        (f : Finding) (res : Option AIVerdict × EngineState),
        analyzeFinding cfg oracle st f = res →
        res.1 = none → res.2.cache = st.cache)
    ∧ (∀ (cfg : ScanConfig) (oracle : Nat → Except Unit JVal) (st : EngineState)
        (f : Finding) (r : JVal) (v : AIVerdict),
        cfg.ai_cache_enabled = true →
        st.cache.lookup (getCacheKey f) = none →
        oracle st.calls = .ok r →
        constructVerdict r = some v →
        analyzeFinding cfg oracle st f
          = (some v, ⟨cachePut (getCacheKey f) v st.cache, st.calls + 1⟩)) := by
  refine ⟨?_, ?_, ?_⟩
  · intro cfg oracle st f hmiss hfail
    have hana : analyzeFinding cfg oracle st f = (none, ⟨st.cache, st.calls + 1⟩) := by
      simp only [analyzeFinding, hmiss]
      rcases hfail with h | ⟨r, hr, hcv⟩
      · simp only [h]
      · simp only [hr, hcv]
    refine ⟨hana, ?_, ?_⟩
    · unfold processOne
      rw [hana]
    · intro rest
      have hone : processOne cfg oracle st f = ((f, true), ⟨st.cache, st.calls + 1⟩) := by
        unfold processOne
        rw [hana]
      simp only [processAll, hone]
  · intro cfg oracle st f res heq hnone
    simp only [analyzeFinding] at heq
    split at heq
    · rw [← heq] at hnone
      cases hnone
    · split at heq
      · rw [← heq]
      · split at heq
        · rw [← heq]
        · rw [← heq] at hnone
          split at hnone <;> cases hnone
  · intro cfg oracle st f r v hcache hmiss horacle hcv
    simp only [analyzeFinding, hcache, if_true, hmiss, horacle, hcv]

/-- Witness for C6: a raising provider call at a concrete finding. -/
theorem c6_failure_keeps_finding_witness :
    analyzeFinding mkConfig failOracle st0 c2f = (none, ⟨[], 1⟩)
      ∧ processOne mkConfig failOracle st0 c2f = ((c2f, true), ⟨[], 1⟩) :=
  ⟨(c6_failure_keeps_finding.1 mkConfig failOracle st0 c2f rfl (Or.inl rfl)).1,
   (c6_failure_keeps_finding.1 mkConfig failOracle st0 c2f rfl (Or.inl rfl)).2.1⟩

/-! ### C7 -/

/-- A response whose `path` value holds the unescaped `\N` the claim is
about, and whose `k` value holds the valid two-character escape `\\`
immediately followed by the text `u0041b`. -/
def c7bad : String := "\x7b\"path\": \"C:\\New\", \"k\": \"a\\\\u0041b\"\x7d"

/-- `c7bad` with only the invalid `\N` escape repaired by hand — the value
the repair strategy would produce if it preserved the backslash and left
every valid escape intact. -/
def c7good : String := "\x7b\"path\": \"C:\\\\New\", \"k\": \"a\\\\u0041b\"\x7d"

/-- A strategy-2 input with an invalid `\N` and a valid `\n` escape. -/
def c7ex : String := "\x7b\"path\": \"C:\\New\", \"note\": \"line1\\nline2\"\x7d"

/-- **C7** counterexample.  The claim's final clause — all valid escape
sequences are left intact by the escape-repair strategy — fails: in
`c7bad` (which is in the claim's scope: it contains an unescaped backslash
before the non-escape character `N`) the valid `\\` escape in the `k`
value is immediately followed by `u0041`, the unicode-protection pass
consumes `\u0041` overlapping it, the orphaned first backslash gets
doubled, and the repaired parse reads `k` as `a\Ab` instead of the intact
`a\u0041b` that direct parsing of the hand-repaired `c7good` yields. -/
theorem c7_escape_repair_counterexample :
    jloads c7bad = none
    ∧ parseJsonWithFallback c7good
        = .ok (.obj [("path", .str "C:\\New"), ("k", .str "a\\u0041b")])
    ∧ parseJsonWithFallback c7bad
        = .ok (.obj [("path", .str "C:\\New"), ("k", .str "a\\Ab")])
    ∧ ("a\\Ab" : String) ≠ "a\\u0041b" :=
  ⟨rfl, rfl, rfl, by decide⟩

/-- **C7** as amended (the counterexample forces dropping the universal
"all valid escape sequences are left intact" clause; the rest stands).
The recovery parser satisfies `parse (dump d) = d` for every dict `d`
serializable by the direct JSON strategy (distinct keys), and on an input
with an unescaped backslash before a non-escape character — `C:\New` —
the escape-repair strategy yields the literal text with the backslash
preserved, here with the valid `\n` escape of the same input left intact
(a valid `\\` escape immediately followed by `uHHHH` is the corrupted
exception). -/
theorem c7_roundtrip_and_repair :
    (∀ d : JVal, wfJ d = true → parseJsonWithFallback (jdumps d) = .ok d)
    ∧ parseJsonWithFallback c7ex
        = .ok (.obj [("path", .str "C:\\New"), ("note", .str "line1\nline2")]) := by
  constructor
  · intro d hd
    have h := jloads_jdumps d hd
    unfold parseJsonWithFallback
    simp only [h]
  · rfl

/-- Witness for C7: the round trip applied at a concrete verdict dict. -/
theorem c7_roundtrip_and_repair_witness :
    parseJsonWithFallback (jdumps (.obj [("is_false_positive", .bool true),
        ("confidence", .num 9 1), ("reasoning", .str "sanitized")]))
      = .ok (.obj [("is_false_positive", .bool true),
          ("confidence", .num 9 1), ("reasoning", .str "sanitized")]) :=
  c7_roundtrip_and_repair.1 _ rfl

/-! ### C8 -/

/-- **C8** (confirmed).  `_parse_json_with_fallback` returns the result of
the first succeeding strategy in the fixed order — direct parse, escape
repair, fence extraction with strategies 1–2 re-applied, brace-substring
with strategies 1–2 re-applied — and raises a decode error carrying the
original text exactly when all four fail. -/
theorem c8_strategy_cascade (content : String) :
    parseJsonWithFallback content
      = (match firstSome [strategy1 content, strategy2 content,
            strategy3 content, strategy4 content] with
         | some j => .ok j
         | none => .error content)
    ∧ ((∃ e, parseJsonWithFallback content = .error e)
        ↔ (strategy1 content = none ∧ strategy2 content = none
            ∧ strategy3 content = none ∧ strategy4 content = none))
    ∧ (∀ e, parseJsonWithFallback content = .error e → e = content) := by
  have hpf : parseJsonWithFallback content
      = (match strategy1 content with
         | some j => Except.ok j
         | none =>
         match strategy2 content with
         | some j => Except.ok j
         | none =>
         match strategy3 content with
         | some j => Except.ok j
         | none =>
         match strategy4 content with
         | some j => Except.ok j
         | none => Except.error content) := by
    unfold parseJsonWithFallback strategy1 strategy2 strategy3 strategy4
    rfl
  have hmain : parseJsonWithFallback content
      = (match firstSome [strategy1 content, strategy2 content,
            strategy3 content, strategy4 content] with
         | some j => .ok j
         | none => .error content) := by
    rw [hpf]
    rcases h1 : strategy1 content with _ | j1 <;>
      rcases h2 : strategy2 content with _ | j2 <;>
      rcases h3 : strategy3 content with _ | j3 <;>
      rcases h4 : strategy4 content with _ | j4 <;>
      simp [firstSome, h1, h2, h3, h4]
  refine ⟨hmain, ?_, ?_⟩
  · rw [hmain]
    constructor
    · intro ⟨e, he⟩
      rcases g1 : strategy1 content with _ | j1 <;>
        rcases g2 : strategy2 content with _ | j2 <;>
        rcases g3 : strategy3 content with _ | j3 <;>
        rcases g4 : strategy4 content with _ | j4 <;>
        simp_all [firstSome]
    · intro ⟨g1, g2, g3, g4⟩
      rw [g1, g2, g3, g4]
      exact ⟨content, rfl⟩
  · intro e he
    rw [hmain] at he
    rcases g : firstSome [strategy1 content, strategy2 content,
        strategy3 content, strategy4 content] with _ | j
    · simp only [g] at he
      injection he with he1
      exact he1.symm
    · simp only [g] at he
      cases he

/-- Witness for C8: the cascade equation at a concrete unparseable text. -/
theorem c8_strategy_cascade_witness :
    parseJsonWithFallback "not json"
      = (match firstSome [strategy1 "not json", strategy2 "not json",
            strategy3 "not json", strategy4 "not json"] with
         | some j => .ok j
         | none => .error "not json") :=
  (c8_strategy_cascade "not json").1

/-! ### C9 -/

/-- A successfully parsed response whose confidence `float()` rejects. -/
def c9resp : JVal :=
  .obj [("is_false_positive", .bool true), ("confidence", .str "not-a-number"),
        ("reasoning", .str "r")]

/-- **C9** counterexample.  The claim says a malformed confidence value
defaults to 0.5 rather than failing the analysis of that finding.  On the
successfully parsed response `c9resp`, `float("not-a-number")` raises, the
engine's `except` catches it, and the analysis of the finding fails: no
verdict is constructed and the finding is kept unmodified with nothing
attached. -/
theorem c9_malformed_confidence_fails :
    constructVerdict c9resp = none
    ∧ (analyzeFinding mkConfig (constOracle c9resp) st0 c2f).1 = none
    ∧ (filterFalsePositives mkConfig (constOracle c9resp) [c2f]).1 = [c2f] :=
  ⟨rfl, rfl, rfl⟩

/-- **C9** as amended (changed only where the counterexample forces it).
A missing confidence defaults to 0.5; a numeric confidence is coerced to
its float value; but a value `float()` cannot coerce makes the analysis of
that finding fail (it is kept unmodified), rather than defaulting. -/
theorem c9_confidence_default :
    (∀ kvs : List (String × JVal), kvs.lookup "confidence" = none →
      ∃ v, constructVerdict (.obj kvs) = some v ∧ v.confidence = mkRat 1 2)
    ∧ (∀ (kvs : List (String × JVal)) (m : Int) (fr : Nat),
        kvs.lookup "confidence" = some (.num m fr) →
        ∃ v, constructVerdict (.obj kvs) = some v ∧ v.confidence = JVal.numVal m fr)
    ∧ constructVerdict c9resp = none
    ∧ (filterFalsePositives mkConfig (constOracle c9resp) [c2f]).1.map
        (fun g => g.ai_analysis) = [none] := by
  refine ⟨?_, ?_, rfl, rfl⟩
  · intro kvs h
    simp only [constructVerdict, h, Option.getD, pyFloat]
    exact ⟨_, rfl, rfl⟩
  · intro kvs m fr h
    simp only [constructVerdict, h, Option.getD, pyFloat]
    exact ⟨_, rfl, rfl⟩

/-- Witness for C9: the default applied at a concrete response. -/
theorem c9_confidence_default_witness :
    ∃ v, constructVerdict (.obj [("is_false_positive", .bool true)]) = some v
      ∧ v.confidence = mkRat 1 2 :=
  c9_confidence_default.1 [("is_false_positive", .bool true)] rfl

/-! ### C10 -/

/-- An Anthropic response no strategy parses, mentioning "False Positive". -/
def c10text : String :=
  "I think this is a False Positive because the input is sanitized upstream."

/-- A finding for the Anthropic fallback scenario. -/
def c10f : Finding := mkFinding "py.xss" .medium "web.py" 7

/-- Threshold 0.5, at which the synthesized confidence sits. -/
def c10cfg : ScanConfig := { mkConfig with ai_confidence_threshold := mkRat 1 2 }

/-- **C10** (confirmed).  When every recovery strategy fails on the
response text, the Anthropic provider does not raise: it returns the
synthesized mapping with `is_false_positive` = whether the lowercased text
contains "false positive", confidence exactly 0.5, and the raw text as
reasoning; on the concrete unparseable `c10text` (which does contain the
phrase) a finding analyzed through it is filtered from the output under a
threshold of 0.5. -/
theorem c10_anthropic_fallback :
    (∀ content : String, parseJsonWithFallback content = .error content →
      anthropicAnalyze content
        = .obj [("is_false_positive",
                  .bool (strContains (pyLower content) "false positive")),
                ("confidence", .num 5 1),
                ("reasoning", .str content)])
    ∧ anthropicAnalyze c10text = anthropicFallbackVerdict c10text
    ∧ strContains (pyLower c10text) "false positive" = true
    ∧ JVal.numVal 5 1 = mkRat 1 2
    ∧ (filterFalsePositives c10cfg (constOracle (anthropicAnalyze c10text))
        [c10f]).1 = [] := by
  refine ⟨?_, rfl, rfl, rfl, rfl⟩
  intro content h
  unfold anthropicAnalyze
  simp only [h]
  rfl

/-- Witness for C10: the fallback at the concrete unparseable text. -/
theorem c10_anthropic_fallback_witness :
    anthropicAnalyze c10text
      = .obj [("is_false_positive",
                .bool (strContains (pyLower c10text) "false positive")),
              ("confidence", .num 5 1),
              ("reasoning", .str c10text)] :=
  c10_anthropic_fallback.1 c10text rfl

end TruScan
